import Mathlib

/-!
Verification development for the resume-parser field-extraction engine
(source: streamlit_app.py).  The seven extractors are shallowly embedded:
Python strings become `List Char`, spaCy entity spans become `Ent` records,
and the `re` patterns of the source are embedded either as terms of a small
regex AST evaluated by a faithful backtracking engine (greedy quantifiers,
ordered alternation, word boundaries, capture groups, left-to-right
non-overlapping `findall` scan), or — for the email pattern, about which we
prove a universally quantified shape theorem — as a hand-specialised
backtracking matcher whose backtracking order mirrors the engine's.

Modelling conventions (each noted again at the definition it concerns):
* `\w`, `\d`, `\s`, case folding and `str.lower()` are modelled at ASCII;
  the Python originals extend them to Unicode, which coincides on the
  ASCII resume text these patterns target.
* Python floats are modelled by `ℚ`; `round(x, 2)` is modelled by
  round-half-up on `ℚ`, which agrees with float rounding away from exact
  half-hundredth boundaries (none of which arise in the concrete inputs
  used below).
* `datetime.now()` is made an explicit `(currentYear, currentMonth)`
  parameter of the experience extractor.
* Python `set` is modelled as an insertion-ordered duplicate-free list;
  every use in the source is order-insensitive (the outputs built from
  sets are sorted, or only tested for emptiness/membership).
-/

/-- Python strings are modelled as lists of characters. -/
abbrev Str := List Char

/-- Conversion from a Lean string literal to the model type. -/
def str (s : String) : Str := s.data

/-- Model of Python str.lower() (ASCII; the source text is ASCII). -/
def lowerStr (s : Str) : Str := s.map Char.toLower

/-- Model of the regex class backslash-s (ASCII part: space, tab, newline,
carriage return, vertical tab, form feed). -/
def wsC (c : Char) : Bool :=
  c == ' ' || c == '\t' || c == '\n' || c == '\r' || c == '\x0b' || c == '\x0c'

/-- Word character for the regex backslash-b assertion (ASCII part of
Python's Unicode word class): letters, digits, underscore. -/
def isWordC (c : Char) : Bool := c.isAlpha || c.isDigit || c == '_'

/-- Word-boundary test between an optional previous character and an
optional next character (out-of-text counts as a non-word position). -/
def atBnd (prev next : Option Char) : Bool :=
  (match prev with
   | some c => isWordC c
   | none => false)
  != (match next with
      | some c => isWordC c
      | none => false)

/-- Model of Python substring containment (the `in` operator on str). -/
def containsSub (n : Str) : Str → Bool
  | [] => n.isEmpty
  | c :: rest => n.isPrefixOf (c :: rest) || containsSub n rest

/-- Model of Python str.strip(): remove leading and trailing whitespace. -/
def pyStrip (s : Str) : Str := List.rdropWhile wsC (s.dropWhile wsC)

/-- Model of Python string comparison (code-point lexicographic), used by
sorted(). -/
def lexLe : Str → Str → Bool
  | [], _ => true
  | _ :: _, [] => false
  | a :: ta, b :: tb =>
    if a.toNat < b.toNat then true
    else if b.toNat < a.toNat then false
    else lexLe ta tb

/-- Insertion into a lexLe-sorted list, before the first element not
below x. -/
def insSorted (x : Str) : List Str → List Str
  | [] => [x]
  | y :: rest => if lexLe x y then x :: y :: rest else y :: insSorted x rest

/-- Model of Python sorted() on strings: a sort by the code-point
lexicographic order (insertion sort; any sort yields the same list on
string keys, where ties are equal strings). -/
def pySorted : List Str → List Str
  | [] => []
  | x :: rest => insSorted x (pySorted rest)

/-- Model of adding an element to a Python set, rendered as an
insertion-ordered duplicate-free list. -/
def setAdd (x : Str) (acc : List Str) : List Str :=
  if x ∈ acc then acc else acc ++ [x]

/-- Model of Python int() on a digit string (regex group of backslash-d). -/
def digitsToNat (s : Str) : Nat := s.foldl (fun a c => 10 * a + (c.toNat - 48)) 0

/-- Fuel-driven worker for replaceAll; the fuel bounds the number of
steps, each of which consumes at least one character of s. -/
def replaceAllF (pat rep : Str) : Nat → Str → Str
  | 0, s => s
  | fuel + 1, s =>
    match pat, s with
    | [], _ => s
    | _ :: _, [] => []
    | p :: pr, c :: rest =>
      if (p :: pr).isPrefixOf (c :: rest) then
        rep ++ replaceAllF (p :: pr) rep fuel (rest.drop pr.length)
      else
        c :: replaceAllF (p :: pr) rep fuel rest

/-- Model of Python str.replace(pat, rep) (replace all non-overlapping
occurrences, left to right).  The source only calls it with the non-empty
pattern "in " (and with "+", via a filter elsewhere). -/
def replaceAll (pat rep : Str) (s : Str) : Str := replaceAllF pat rep (s.length + 1) s

/-- The maximal suffix of s after the last dot of s (the whole of s if no
dot); used to state claims about the token after the final dot. -/
def afterLastDot (s : Str) : Str :=
  (s.reverse.takeWhile (fun c => !(c == '.'))).reverse

/-- The apostrophe character, used in some source regex literals. -/
def apos : Char := Char.ofNat 39

/-! ### A small regex AST and backtracking engine

The AST covers exactly the constructs appearing in the source patterns:
literals (case-sensitive and case-insensitive for the IGNORECASE flag),
single-character classes, concatenation, ordered alternation, greedy
option, greedy bounded/unbounded repetition of a class, word boundary,
and capturing groups.  The engine is continuation-passing and backtracks
in the same order as Python's re module: alternatives left to right,
quantifiers longest first. -/

/-- Matcher state: the character just before the current position (for
word boundaries), the remaining input, and captures collected so far. -/
structure MSt where
  prev : Option Char
  rest : List Char
  caps : List (Nat × List Char)

/-- A matcher continuation. -/
abbrev MCont := MSt → Option MSt

/-- Regex AST. -/
inductive RE : Type where
  | eps : RE
  | lit : List Char → RE
  | liti : List Char → RE
  | cls : (Char → Bool) → RE
  | seq : RE → RE → RE
  | alt : RE → RE → RE
  | opt : RE → RE
  | rep : Nat → Option Nat → (Char → Bool) → RE
  | wb : RE
  | grp : Nat → RE → RE

/-- Consume a literal (case-insensitively when ci is true, modelling the
re.IGNORECASE flag at ASCII). -/
def litStep (cs : List Char) (ci : Bool) (st : MSt) (k : MCont) : Option MSt :=
  match cs with
  | [] => k st
  | c :: cs' =>
    match st.rest with
    | [] => none
    | d :: rest' =>
      if (if ci then c.toLower == d.toLower else c == d) then
        litStep cs' ci ⟨some d, rest', st.caps⟩ k
      else none

/-- Greedy unbounded repetition of a class (longest first, backtracking
one character at a time), as Python's star/plus does after the mandatory
copies have been consumed. -/
def starG (p : Char → Bool) (prev : Option Char) (rest : List Char)
    (caps : List (Nat × List Char)) (k : MCont) : Option MSt :=
  match rest with
  | [] => k ⟨prev, [], caps⟩
  | c :: rest' =>
    if p c then
      match starG p (some c) rest' caps k with
      | some r => some r
      | none => k ⟨prev, rest, caps⟩
    else k ⟨prev, rest, caps⟩

/-- Greedy repetition of a class, at most n further copies. -/
def repUpto (p : Char → Bool) (n : Nat) (prev : Option Char) (rest : List Char)
    (caps : List (Nat × List Char)) (k : MCont) : Option MSt :=
  match n with
  | 0 => k ⟨prev, rest, caps⟩
  | n' + 1 =>
    match rest with
    | [] => k ⟨prev, [], caps⟩
    | c :: rest' =>
      if p c then
        match repUpto p n' (some c) rest' caps k with
        | some r => some r
        | none => k ⟨prev, rest, caps⟩
      else k ⟨prev, rest, caps⟩

/-- Exactly n copies of a class (the mandatory part of a repetition). -/
def repExact (p : Char → Bool) (n : Nat) (prev : Option Char) (rest : List Char)
    (caps : List (Nat × List Char)) (k : MCont) : Option MSt :=
  match n with
  | 0 => k ⟨prev, rest, caps⟩
  | n' + 1 =>
    match rest with
    | [] => none
    | c :: rest' =>
      if p c then repExact p n' (some c) rest' caps k else none

/-- The backtracking matcher.  Alternation tries the left branch first;
option is greedy; repetition is greedy; a capturing group records the
consumed substring. -/
def reMatch : RE → MSt → MCont → Option MSt
  | .eps, st, k => k st
  | .lit cs, st, k => litStep cs false st k
  | .liti cs, st, k => litStep cs true st k
  | .cls p, st, k =>
    match st.rest with
    | [] => none
    | c :: rest' => if p c then k ⟨some c, rest', st.caps⟩ else none
  | .seq a b, st, k => reMatch a st (fun st' => reMatch b st' k)
  | .alt a b, st, k =>
    (match reMatch a st k with
     | some r => some r
     | none => reMatch b st k)
  | .opt a, st, k =>
    (match reMatch a st k with
     | some r => some r
     | none => k st)
  | .rep lo hi p, st, k =>
    repExact p lo st.prev st.rest st.caps (fun st' =>
      match hi with
      | none => starG p st'.prev st'.rest st'.caps k
      | some h => repUpto p (h - lo) st'.prev st'.rest st'.caps k)
  | .wb, st, k => if atBnd st.prev st.rest.head? then k st else none
  | .grp i a, st, k =>
    reMatch a st (fun st' =>
      k ⟨st'.prev, st'.rest,
         (i, st.rest.take (st.rest.length - st'.rest.length)) :: st'.caps⟩)

/-- Left-to-right non-overlapping scan, as re.findall: try a match at each
position; on success record it and resume after it, otherwise advance one
character.  The fuel (input length + 1) is an upper bound on the number of
iterations, since every iteration either consumes input or is the last. -/
def scanAll (r : RE) (fuel : Nat) (prev : Option Char) (s : List Char) :
    List (List Char × List (Nat × List Char)) :=
  match fuel with
  | 0 => []
  | fuel' + 1 =>
    match reMatch r ⟨prev, s, []⟩ some with
    | some st' =>
      let n := s.length - st'.rest.length
      if n == 0 then
        match s with
        | [] => [(([] : List Char), st'.caps)]
        | c :: rest' => ([], st'.caps) :: scanAll r fuel' (some c) rest'
      else (s.take n, st'.caps) :: scanAll r fuel' st'.prev st'.rest
    | none =>
      match s with
      | [] => []
      | c :: rest' => scanAll r fuel' (some c) rest'

/-- Model of re.findall: all matches with their captures. -/
def findall (r : RE) (s : List Char) : List (List Char × List (Nat × List Char)) :=
  scanAll r (s.length + 1) none s

/-- Look up a capture group in the captures of one match. -/
def capGet (caps : List (Nat × List Char)) (i : Nat) : List Char :=
  match caps with
  | [] => []
  | (j, v) :: rest => if j == i then v else capGet rest i

/-- findall for a pattern with exactly one capture group (Python returns
the group). -/
def findallG1 (r : RE) (s : List Char) : List Str :=
  (findall r s).map (fun m => capGet m.2 1)

/-- findall for a pattern with no capture group (Python returns the whole
match). -/
def findallWhole (r : RE) (s : List Char) : List Str :=
  (findall r s).map (fun m => m.1)

/-- findall for a pattern with four capture groups (Python returns
4-tuples). -/
def findallG4 (r : RE) (s : List Char) : List (Str × Str × Str × Str) :=
  (findall r s).map (fun m => (capGet m.2 1, capGet m.2 2, capGet m.2 3, capGet m.2 4))

/-- Concatenation of a list of regexes. -/
def reSeq (rs : List RE) : RE := rs.foldr RE.seq RE.eps

/-- Ordered alternation of a list of regexes (left to right, as in the
source patterns). -/
def reAlts : List RE → RE
  | [] => RE.eps
  | [r] => r
  | r :: rest => RE.alt r (reAlts rest)

/-- Ordered alternation of literal strings. -/
def reLits (ss : List Str) : RE := reAlts (ss.map RE.lit)

/-! ### Data model: entity spans and documents -/

/-- A labelled entity span, as produced by the external entity provider
(spaCy `ent.text` / `ent.label_`). -/
structure Ent where
  text : Str
  label : Str

/-- A processed document: the raw text together with its entity spans
(spaCy `doc.text` / `doc.ents`). -/
structure Doc where
  text : Str
  ents : List Ent

/-! ### Email extractor

Source regex (extract_email):
  backslash-b [A-Za-z0-9._%+-]+ @ [A-Za-z0-9.-]+ backslash-. [A-Z|a-z] rep-2-or-more backslash-b
followed by taking the first findall result, or "" if none.

Note that the final character class is written `[A-Z|a-z]` in the source,
so it literally contains the pipe character in addition to the letters.

Because the claims require a theorem quantified over all inputs, this one
pattern is embedded as a hand-specialised matcher rather than through the
generic engine.  The specialisation is exact for this pattern:
* the local-part class does not contain the @ sign, so the greedy plus over
  it matches precisely the maximal run (shrinking it can never expose an
  @ sign);
* the domain class contains the dot, so the greedy plus over it backtracks
  from the maximal run one character at a time; only lengths whose next
  character is a literal dot survive (`domPick`, longest first);
* the final class is tried greedily from the maximal run down to the
  two-copy minimum, each length checked against the trailing word
  boundary (`tldPick`, longest first);
* positions are tried left to right, as re.findall does (`emailScan`). -/

/-- The local-part class [A-Za-z0-9._%+-]. -/
def localC (c : Char) : Bool :=
  c.isAlpha || c.isDigit || c == '.' || c == '_' || c == '%' || c == '+' || c == '-'

/-- The domain class [A-Za-z0-9.-]. -/
def domC (c : Char) : Bool := c.isAlpha || c.isDigit || c == '.' || c == '-'

/-- The final class [A-Z|a-z]: letters OR THE PIPE, exactly as written in
the source pattern. -/
def tldC (c : Char) : Bool := c.isAlpha || c == '|'

/-- Greedy choice of the final-class run length: from the maximal run
length down to 2, the first length whose trailing position is a word
boundary.  run is the maximal final-class run, after the character
following it. -/
def tldPick (run : Str) (after : Option Char) : Nat → Option Nat
  | 0 => none
  | 1 => none
  | n + 2 =>
    if atBnd run[n + 1]? (if n + 2 = run.length then after else run[n + 2]?) then
      some (n + 2)
    else tldPick run after (n + 1)

/-- Match of the final part `[A-Z|a-z]` two-or-more followed by a word
boundary at the start of t; returns the number of characters consumed. -/
def tldFrom (t : Str) : Option Nat :=
  let run := t.takeWhile tldC
  tldPick run (t.dropWhile tldC).head? run.length

/-- Greedy choice of the domain length: candidate lengths from the maximal
domain-class run length down to 1; a candidate length k needs a literal
dot at index k, then the final part must match after it.  Returns the
domain length and the final-part length. -/
def domPick (s2 : Str) : Nat → Option (Nat × Nat)
  | 0 => none
  | k' + 1 =>
    if s2[k' + 1]? = some '.' then
      match tldFrom (s2.drop (k' + 2)) with
      | some m => some (k' + 1, m)
      | none => domPick s2 k'
    else domPick s2 k'

/-- Attempt of the whole email pattern at one position (prev is the
character before the position, s the text from the position on). -/
def emailAt (prev : Option Char) (s : Str) : Option Str :=
  if atBnd prev s.head? then
    if s.takeWhile localC = [] then none
    else
      match s.drop (s.takeWhile localC).length with
      | '@' :: s2 =>
        (match domPick s2 (s2.takeWhile domC).length with
         | some (k, m) =>
           some (s.takeWhile localC ++ '@' :: (s2.take k ++ '.' :: (s2.drop (k + 1)).take m))
         | none => none)
      | _ => none
  else none

/-- Left-to-right scan for the first email match, as findall-then-first
(on empty remaining input the single attempt is the answer). -/
def emailScan : Option Char → Str → Option Str
  | prev, [] => emailAt prev []
  | prev, c :: rest =>
    match emailAt prev (c :: rest) with
    | some r => some r
    | none => emailScan (some c) rest

/-- Model of extract_email: the first match in document order, or the
empty string. -/
def extract_email (text : Str) : Str := (emailScan none text).getD []

/-! ### Name extractor

Source (extract_name): collect the texts of PERSON-labelled entities in
entity order, then candidates.sort(key=len, reverse=True) — Python's sort
is stable, so this is the unique stable descending-by-length order — and
return the first element, or "" if there are no candidates.  The stable
sort is modelled by insertion sort placing each earlier element before
the later elements of equal length. -/

/-- Texts of PERSON-labelled spans, in entity order. -/
def personTexts (ents : List Ent) : List Str :=
  ents.filterMap (fun e => if e.label = str "PERSON" then some e.text else none)

/-- Stable insertion (descending by length): an element is inserted before
all strictly-shorter and all equal-length later elements. -/
def insLenDesc (x : Str) : List Str → List Str
  | [] => [x]
  | y :: rest => if x.length < y.length then y :: insLenDesc x rest else x :: y :: rest

/-- Stable sort, descending by length, equal lengths in original order:
the unique output of any stable sort with key=len, reverse=True. -/
def sortLenDesc : List Str → List Str
  | [] => []
  | x :: rest => insLenDesc x (sortLenDesc rest)

/-- Model of extract_name. -/
def extract_name (doc : Doc) : Str :=
  let candidates := personTexts doc.ents
  if candidates = [] then [] else (sortLenDesc candidates).headD []

/-! ### Skills extractor -/

/-- The fixed skill vocabulary (tech_skills in the source, same order). -/
def tech_skills : List Str := [str "python", str "java", str "javascript",
  str "react", str "angular", str "vue", str "node.js", str "django",
  str "flask", str "html", str "css", str "html5", str "css3", str "sql",
  str "nosql", str "mongodb", str "postgresql", str "mysql", str "mariadb",
  str "aws", str "azure", str "gcp", str "docker", str "kubernetes",
  str "ci/cd", str "git", str "jenkins", str "terraform",
  str "machine learning", str "deep learning", str "nlp",
  str "data science", str "data analysis", str "powerbi", str "r",
  str "golang", str "c++", str "c#", str "php", str "ruby", str "scala",
  str "swift", str "kotlin", str "typescript", str "hadoop", str "spark",
  str "tableau", str "excel", str "powerpoint", str "linux", str "unix",
  str "windows", str "macos", str "rest api", str "graphql", str "oauth",
  str "json", str "xml", str "soap", str "jquery", str "bootstrap",
  str "redux", str "spring", str "hibernate", str "servlet", str "jsp",
  str "asp.net", str "mvc", str "mvvm", str "oop", str "tdd", str "agile",
  str "scrum", str "kanban", str "jira", str "confluence",
  str "project management", str "team management", str "leadership",
  str "communication", str "problem-solving", str "critical thinking",
  str "cooperation", str "mobile development", str "android", str "ios",
  str "react native", str "flutter", str "xamarin", str "tensorflow",
  str "pytorch", str "keras", str "scikit-learn", str "pandas",
  str "numpy", str "matplotlib", str "seaborn", str "d3.js",
  str "blockchain", str "cryptocurrency", str "smart contracts",
  str "solidity", str "web3", str "ethereum", str "devops", str "sre",
  str "system design", str "microservices", str "restful",
  str "cybersecurity", str "pentesting"]

/-- One attempt of the pattern backslash-b literal backslash-b at a
position (the source builds it as r'' boundary + re.escape(skill) +
boundary, so the inner part is an exact literal). -/
def wbLitAt (l : Str) (prev : Option Char) (s : Str) : Bool :=
  atBnd prev s.head? && l.isPrefixOf s && atBnd l.getLast? (s.drop l.length).head?

/-- re.search of backslash-b literal backslash-b: some position matches. -/
def wbSearch (l : Str) : Option Char → Str → Bool
  | prev, [] => wbLitAt l prev []
  | prev, c :: rest => wbLitAt l prev (c :: rest) || wbSearch l (some c) rest

/-- The language-name pattern of the source (applied with re.IGNORECASE),
alternatives in source order; no capture groups, so findall returns the
matched text in its original casing. -/
def lang_pattern : RE := reSeq [RE.wb, reAlts [
  RE.liti (str "Python"),
  RE.seq (RE.liti (str "Java")) (RE.opt (RE.liti (str "Script"))),
  RE.liti (str "C++"),
  RE.liti (str "C#"),
  RE.liti (str "PHP"),
  RE.liti (str "Ruby"),
  RE.seq (RE.liti (str "Go")) (RE.opt (RE.liti (str "lang"))),
  RE.liti (str "Swift"),
  RE.liti (str "Kotlin"),
  RE.liti (str "R"),
  RE.liti (str "Scala"),
  RE.liti (str "Perl"),
  RE.liti (str "Rust"),
  RE.liti (str "TypeScript"),
  RE.liti (str "Dart"),
  RE.liti (str "Objective-C"),
  RE.liti (str "Shell"),
  RE.liti (str "Bash"),
  RE.liti (str "PowerShell"),
  RE.liti (str "SQL"),
  RE.liti (str "NoSQL")], RE.wb]

/-- First pass of extract_skills: every vocabulary entry found in the
lowercased text by its boundary-literal-boundary pattern. -/
def skillsVocabPass (text : Str) : List Str :=
  tech_skills.foldl
    (fun acc sk => if wbSearch sk none (lowerStr text) then setAdd sk acc else acc) []

/-- Second pass of extract_skills: ORG entities whose lowercased text is
a vocabulary entry, added in their original casing. -/
def skillsOrgPass (ents : List Ent) (acc : List Str) : List Str :=
  ents.foldl
    (fun acc1 e =>
      if e.label = str "ORG" then
        (if lowerStr e.text ∈ tech_skills then setAdd e.text acc1 else acc1)
      else acc1) acc

/-- Third pass of extract_skills: every language-name match, added as
matched. -/
def skillsLangPass (text : Str) (acc : List Str) : List Str :=
  (findallWhole lang_pattern text).foldl (fun acc1 lg => setAdd lg acc1) acc

/-- Model of extract_skills: vocabulary pass over the lowercased text,
then ORG entities whose lowercased text is a vocabulary entry (added in
original casing), then the language-name pass (added as matched); the set
is returned sorted. -/
def extract_skills (doc : Doc) (text : Str) : List Str :=
  pySorted (skillsLangPass text (skillsOrgPass doc.ents (skillsVocabPass text)))

/-! ### Education extractor -/

/-- The education keywords tested against lowercased ORG entity text. -/
def edu_keywords : List Str := [str "university", str "college", str "institute", str "school"]

/-- ORG entities classified as educational, in entity order. -/
def eduOrgs (doc : Doc) : List Str :=
  doc.ents.filterMap (fun e =>
    if e.label = str "ORG" then
      (if edu_keywords.any (fun w => containsSub w (lowerStr e.text)) then some e.text
       else none)
    else none)

/-- The degree alternatives of degree_pattern, in source order (the source
escapes the dots and apostrophes, so each alternative is a literal). -/
def degreeAlts : List Str := [str "Bachelor", str "Master", str "MBA", str "PhD",
  str "BSc", str "MSc", str "B.Tech", str "M.Tech", str "B.E", str "M.E",
  str "B.A", str "M.A", str "B.Com", str "M.Com",
  str "Bachelor" ++ [apos, 's'], str "Master" ++ [apos, 's'],
  str "Doctorate", str "Diploma"]

/-- The subject alternatives of the optional "of" tail of degree_pattern. -/
def degreeOfAlts : List Str := [str "Science", str "Arts", str "Engineering",
  str "Technology", str "Commerce", str "Business Administration"]

/-- degree_pattern: boundary, degree alternative, optional
(whitespace "of" whitespace subject), boundary.  No capture groups. -/
def degree_pattern : RE := reSeq [RE.wb, reLits degreeAlts,
  RE.opt (reSeq [RE.cls wsC, RE.lit (str "of"), RE.cls wsC, reLits degreeOfAlts]),
  RE.wb]

/-- The major alternatives of major_pattern, in source order; note the
alternative " Business" carries a leading space, exactly as in the
source pattern. -/
def majorAlts : List Str := [str "Computer Science", str "Information Technology",
  str "CSE", str " Business", str "Economics", str "Engineering",
  str "Mathematics", str "Physics", str "Chemistry", str "Biology",
  str "Psychology", str "Marketing", str "Finance", str "Accounting",
  str "Management", str "Law", str "Medicine", str "Communications",
  str "Media", str "Design", str "Architecture"]

/-- major_pattern: boundary, "in", one whitespace, major alternative,
boundary.  No capture groups. -/
def major_pattern : RE := reSeq [RE.wb, RE.lit (str "in"), RE.cls wsC,
  reLits majorAlts, RE.wb]

/-- The degree matches of a document (findall over doc.text). -/
def degreesOf (doc : Doc) : List Str := findallWhole degree_pattern doc.text

/-- The major matches of a document (findall over doc.text). -/
def majorsOf (doc : Doc) : List Str := findallWhole major_pattern doc.text

/-- The degree loop of extract_education: append each degree match unless
it is already present in the accumulated list. -/
def eduFoldDeg (acc : List Str) : List Str → List Str
  | [] => acc
  | d :: rest => eduFoldDeg (if d ∈ acc then acc else acc ++ [d]) rest

/-- The major loop of extract_education: the membership test is on the
raw match, while the appended value has "in " replaced away — exactly as
in the source (major.replace applied inside the append). -/
def eduFoldMaj (acc : List Str) : List Str → List Str
  | [] => acc
  | m :: rest =>
    eduFoldMaj (if m ∈ acc then acc else acc ++ [replaceAll (str "in ") [] m]) rest

/-- Model of extract_education: educational ORGs in entity order, then the
degree loop, then the major loop. -/
def extract_education (doc : Doc) : List Str :=
  eduFoldMaj (eduFoldDeg (eduOrgs doc) (degreesOf doc)) (majorsOf doc)

/-! ### Experience-duration extractor -/

/-- Optional trailing plus after the year count. -/
def reOptPlus : RE := RE.opt (RE.lit (str "+"))

/-- Greedy whitespace star. -/
def reStarWs : RE := RE.rep 0 none wsC

/-- The digit class for backslash-d (ASCII). -/
def digitC (c : Char) : Bool := c.isDigit

/-- The captured digit run (group 1 in all four tier-1 patterns). -/
def reDigits1 : RE := RE.grp 1 (RE.rep 1 none digitC)

/-- years-or-yrs alternation. -/
def reYearsYrs : RE := RE.alt (RE.lit (str "years")) (RE.lit (str "yrs"))

/-- Tier-1 pattern 1: digits, optional plus, whitespace, years/yrs,
optional (whitespace "of"), whitespace, "experience". -/
def expPat1 : RE := reSeq [reDigits1, reOptPlus, reStarWs, reYearsYrs,
  RE.opt (reSeq [reStarWs, RE.lit (str "of")]), reStarWs, RE.lit (str "experience")]

/-- Tier-1 pattern 2: "experience", whitespace, optional of/for,
whitespace, digits, optional plus, whitespace, years/yrs. -/
def expPat2 : RE := reSeq [RE.lit (str "experience"), reStarWs,
  RE.opt (RE.alt (RE.lit (str "of")) (RE.lit (str "for"))), reStarWs,
  reDigits1, reOptPlus, reStarWs, reYearsYrs]

/-- Tier-1 pattern 3: "worked", whitespace, optional "for", whitespace,
digits, optional plus, whitespace, years/yrs. -/
def expPat3 : RE := reSeq [RE.lit (str "worked"), reStarWs,
  RE.opt (RE.lit (str "for")), reStarWs, reDigits1, reOptPlus, reStarWs, reYearsYrs]

/-- Tier-1 pattern 4: digits, optional plus, whitespace, years/yrs,
(whitespace "in"). -/
def expPat4 : RE := reSeq [reDigits1, reOptPlus, reStarWs, reYearsYrs,
  reSeq [reStarWs, RE.lit (str "in")]]

/-- The four tier-1 patterns (year_patterns in the source, same order). -/
def year_patterns : List RE := [expPat1, expPat2, expPat3, expPat4]

/-- All parsed tier-1 values: every group-1 capture across the four
patterns over the lowercased text, with a plus sign removed and the rest
parsed as an integer (the capture is a digit run, so int() never fails
and the except branch of the source is dead). -/
def tier1Values (text : Str) : List Nat :=
  year_patterns.foldl (fun acc p =>
    acc ++ (findallG1 p (lowerStr text)).map
      (fun m => digitsToNat (m.filter (fun c => !(c == '+'))))) []

/-- The running maximum of the tier-1 loop, started at 0. -/
def tier1Max (text : Str) : Nat := (tier1Values text).foldl Nat.max 0

/-- The lowercase-letter class [a-z]. -/
def lowerC (c : Char) : Bool := c.isLower

/-- The month alternatives of the date pattern, in source order. -/
def monthNames : List Str := [str "Jan", str "Feb", str "Mar", str "Apr",
  str "May", str "Jun", str "Jul", str "Aug", str "Sep", str "Oct",
  str "Nov", str "Dec"]

/-- The tail after a month (or month-or-Present) group in the date
pattern: [a-z]* dot? comma? whitespace* apostrophe?. -/
def dateTail : RE := reSeq [RE.rep 0 none lowerC, RE.opt (RE.lit (str ".")),
  RE.opt (RE.lit (str ",")), reStarWs, RE.opt (RE.lit [apos])]

/-- The date-range pattern of tier 2: (months) tail (digits 2-4)
whitespace* - whitespace* (months or Present) tail (digits 0-4);
four capture groups. -/
def date_pattern : RE := reSeq [
  RE.grp 1 (reLits monthNames),
  dateTail,
  RE.grp 2 (RE.rep 2 (some 4) digitC),
  reStarWs, RE.lit (str "-"), reStarWs,
  RE.grp 3 (reLits (monthNames ++ [str "Present"])),
  dateTail,
  RE.grp 4 (RE.rep 0 (some 4) digitC)]

/-- The month_to_num dictionary of the source. -/
def month_to_num : List (Str × Nat) := [(str "Jan", 1), (str "Feb", 2),
  (str "Mar", 3), (str "Apr", 4), (str "May", 5), (str "Jun", 6),
  (str "Jul", 7), (str "Aug", 8), (str "Sep", 9), (str "Oct", 10),
  (str "Nov", 11), (str "Dec", 12)]

/-- Dictionary get with default, as dict.get(key, default). -/
def monthLookup : List (Str × Nat) → Str → Nat → Nat
  | [], _, d => d
  | (k, v) :: rest, s, d => if k = s then v else monthLookup rest s d

/-- The 2-digit-year pivot of the source: a capture of length at most two
is expanded with 2000 below 50 and 1900 otherwise. -/
def normYear (g : Str) : Nat :=
  let y := digitsToNat g
  if g.length ≤ 2 then (if y < 50 then y + 2000 else y + 1900) else y

/-- Model of round(x, 2).  Mathlib's round is round-half-up; Python's
float round is round-half-even, and the two agree except at exact
half-hundredth boundaries, which do not occur in the inputs used below. -/
def round2 (q : ℚ) : ℚ := ((round (q * 100) : ℤ) : ℚ) / 100

/-- The duration of one date-range match, in years: month names are
looked up with the source defaults (1 for the start, 12 for the end); an
end month Present takes the current year and month cy/cm; an empty
end-year capture takes the current year; two-digit years are expanded by
the pivot rule. -/
def matchDuration (cy cm : Nat) (m : Str × Str × Str × Str) : ℚ :=
  let smn : Nat := monthLookup month_to_num (m.1.take 3) 1
  let syr : Nat := normYear m.2.1
  let emn : Nat := if m.2.2.1 = str "Present" then cm
                   else monthLookup month_to_num (m.2.2.1.take 3) 12
  let eyr : Nat := if m.2.2.1 = str "Present" then cy
                   else (if m.2.2.2 = [] then cy else normYear m.2.2.2)
  ((eyr : ℚ) - (syr : ℚ)) + (((emn : ℚ) - (smn : ℚ)) / 12)

/-- The per-match durations of tier 2, keeping only positive values.
cy/cm stand for datetime.now().year/.month. -/
def dateDurations (text : Str) (cy cm : Nat) : List ℚ :=
  ((findallG4 date_pattern text).map (matchDuration cy cm)).filter
    (fun d => decide (0 < d))

/-- Model of extract_experience_years.  Tier 1 is the running maximum of
the explicit-phrase matches; tier 2 (the date-range sum, rounded to two
decimals) runs exactly when that maximum is 0. -/
def extract_experience_years (text : Str) (cy cm : Nat) : ℚ :=
  let t1 := tier1Max text
  if t1 = 0 then
    (let ds := dateDurations text cy cm
     if ds = [] then 0 else round2 (ds.foldl (· + ·) 0))
  else (t1 : ℚ)

/-! ### Companies extractor -/

/-- The uppercase-letter class [A-Z]. -/
def upperC (c : Char) : Bool := c.isUpper

/-- The class [A-Za-z backslash-s] of the company-name body. -/
def nameC (c : Char) : Bool := c.isAlpha || wsC c

/-- The regex dot (any character except newline), needed because the
suffix list is interpolated UNescaped into the employment patterns, so
the dot of "Pvt. Ltd" is a metacharacter there. -/
def dotC (c : Char) : Bool := !(c == '\n')

/-- company_suffixes, in source order. -/
def company_suffixes : List Str := [str "Ltd", str "Limited", str "LLC",
  str "Corp", str "Corporation", str "Inc", str "Incorporated", str "Pvt",
  str "Private", str "Pvt. Ltd", str "Systems", str "Technologies",
  str "Solutions", str "Software", str "Services", str "Group",
  str "Holdings", str "International", str "Global"]

/-- non_company_indicators, in source order. -/
def non_company_indicators : List Str := [str "Certificate",
  str "Certification", str "Course", str "Courses", str "Stack",
  str "Full Stack", str "Data Science", str "Data Scientist",
  str "Engineer", str "Developer", str "Intern", str "Machine Learning",
  str "AI", str "Artificial Intelligence", str "NLP", str "Deep Learning",
  str "CSE", str "Computer Science", str "Education", str "University",
  str "College", str "School", str "Institute", str "Fundamentals",
  str "Analysis", str "Analytics"]

/-- The per-suffix pattern of generation source 1:
([A-Z][A-Za-z backslash-s]+) whitespace+ escaped-suffix boundary,
with one capture group. -/
def suffixRE (suf : Str) : RE :=
  reSeq [RE.grp 1 (RE.seq (RE.cls upperC) (RE.rep 1 none nameC)),
    RE.rep 1 none wsC, RE.lit suf, RE.wb]

/-- A suffix string as it reads when interpolated into a regex without
escaping: every character is a literal except the dot, which is the
any-character metacharacter. -/
def rawLit (s : Str) : RE :=
  reSeq (s.map (fun c => if c == '.' then RE.cls dotC else RE.lit [c]))

/-- The unescaped suffix alternation of the employment patterns. -/
def employSuffixAlt : RE := reAlts (company_suffixes.map rawLit)

/-- The capture group of the employment patterns:
([A-Z][A-Za-z backslash-s]+(?: whitespace+ (?:suffixes))). -/
def employGroup : RE :=
  RE.grp 1 (reSeq [RE.cls upperC, RE.rep 1 none nameC, RE.rep 1 none wsC,
    employSuffixAlt])

/-- Employment pattern 1: (?:worked|employed) whitespace+
(?:at|by|with|for) whitespace+ group. -/
def employPat1 : RE := reSeq [RE.alt (RE.lit (str "worked")) (RE.lit (str "employed")),
  RE.rep 1 none wsC, reLits [str "at", str "by", str "with", str "for"],
  RE.rep 1 none wsC, employGroup]

/-- Employment pattern 2: (?:position|role|job) whitespace+ at
whitespace+ group. -/
def employPat2 : RE := reSeq [reLits [str "position", str "role", str "job"],
  RE.rep 1 none wsC, RE.lit (str "at"), RE.rep 1 none wsC, employGroup]

/-- The disqualifying-indicator test applied before every set insertion:
some indicator, lowercased, is a substring of the lowercased candidate. -/
def anyIndicator (s : Str) : Bool :=
  non_company_indicators.any (fun ind => containsSub (lowerStr ind) (lowerStr s))

/-- Generation source 1: for each suffix, each captured name yields
strip(name) + " " + suffix, added unless an indicator occurs in it. -/
def suffixPhase (text : Str) (acc : List Str) : List Str :=
  company_suffixes.foldl (fun acc1 suf =>
    (findallG1 (suffixRE suf) text).foldl (fun acc2 m =>
      let name := pyStrip m ++ str " " ++ suf
      if anyIndicator name then acc2 else setAdd name acc2) acc1) acc

/-- Generation source 2: each employment-pattern capture is added
stripped, unless an indicator occurs in the raw capture. -/
def employPhase (text : Str) (acc : List Str) : List Str :=
  [employPat1, employPat2].foldl (fun acc1 p =>
    (findallG1 p text).foldl (fun acc2 m =>
      if anyIndicator m then acc2 else setAdd (pyStrip m) acc2) acc1) acc

/-- The educational terms of generation source 3. -/
def org_edu_terms : List Str := [str "university", str "college",
  str "institute", str "school"]

/-- The technology terms of generation source 3. -/
def org_tech_terms : List Str := [str "python", str "java",
  str "javascript", str "ml", str "ai", str "nlp"]

/-- The keep-condition of generation source 3 on an ORG entity:
is_likely_company and not (contains_non_company or is_educational or
is_tech_term). -/
def orgKeep (e : Ent) : Bool :=
  let isLikely := company_suffixes.any
    (fun suf => containsSub (lowerStr suf) (lowerStr e.text))
  let nonComp := anyIndicator e.text
  let isEdu := org_edu_terms.any (fun w => containsSub w (lowerStr e.text))
  let isTech := org_tech_terms.any (fun w => containsSub w (lowerStr e.text))
  isLikely && !(nonComp || isEdu || isTech)

/-- Generation source 3: an ORG entity is added when its lowercased text
contains a suffix and contains no indicator, no educational term and no
technology term. -/
def orgPhase (ents : List Ent) (acc : List Str) : List Str :=
  ents.foldl (fun acc1 e =>
    if e.label = str "ORG" then
      (if orgKeep e then setAdd e.text acc1 else acc1)
    else acc1) acc

/-- The candidate set (companies in the source), built by the three
generation sources in order. -/
def companiesSet (ents : List Ent) (text : Str) : List Str :=
  orgPhase ents (employPhase text (suffixPhase text []))

/-- The job-title terms of the final filter. -/
def filter_job_terms : List Str := [str "engineer", str "developer",
  str "scientist", str "intern"]

/-- The course terms of the final filter. -/
def filter_course_terms : List Str := [str "certificate", str "course",
  str "fundamentals", str "full stack"]

/-- The technology terms of the final filter. -/
def filter_tech_terms : List Str := [str "data science",
  str "machine learning", str "ai", str "ml", str "analytics"]

/-- The final filter: no job-title, course or technology term, length at
least 4, first character uppercase (the length test guards the Python
company[0] access). -/
def companyFilter (c : Str) : Bool :=
  let isJob := filter_job_terms.any (fun w => containsSub w (lowerStr c))
  let isCourse := filter_course_terms.any (fun w => containsSub w (lowerStr c))
  let isTech := filter_tech_terms.any (fun w => containsSub w (lowerStr c))
  !(isJob || isCourse || isTech) && decide (4 ≤ c.length) &&
    (match c with
     | [] => false
     | h :: _ => h.isUpper)

/-- filtered_companies: the candidate set filtered. -/
def filteredCompanies (ents : List Ent) (text : Str) : List Str :=
  (companiesSet ents text).filter companyFilter

/-- The shorter disqualifying list of the fallback path. -/
def fallback_terms : List Str := [str "university", str "college",
  str "school", str "data science", str "python", str "certificate",
  str "machine learning", str "fundamentals"]

/-- fallback_companies: raw ORG entities of length at least 4 not
containing a fallback term, in entity order. -/
def fallbackCompanies (ents : List Ent) : List Str :=
  ents.filterMap (fun e =>
    if e.label = str "ORG" then
      (if 4 ≤ e.text.length then
        (if fallback_terms.any (fun w => containsSub w (lowerStr e.text)) then none
         else some e.text)
       else none)
    else none)

/-- The sentinel returned when nothing at all is found. -/
def noCompaniesSentinel : Str := str "No companies detected"

/-- Model of extract_companies: the sorted filtered set when non-empty;
otherwise the fallback list when non-empty; otherwise the one-element
sentinel list. -/
def extract_companies (doc : Doc) (text : Str) : List Str :=
  let filtered := filteredCompanies doc.ents text
  if filtered = [] then
    (let fb := fallbackCompanies doc.ents
     if fb = [] then [noCompaniesSentinel] else fb)
  else pySorted filtered

/-! ### Helper lemmas -/

/-- Membership after a set insertion. -/
theorem mem_setAdd {x y : Str} {l : List Str} (h : x ∈ setAdd y l) : x = y ∨ x ∈ l := by
  unfold setAdd at h
  by_cases hy : y ∈ l
  · simp only [if_pos hy] at h
    exact Or.inr h
  · simp only [if_neg hy, List.mem_append, List.mem_singleton] at h
    exact h.symm

/-- Set insertion keeps the list duplicate-free. -/
theorem nodup_setAdd {y : Str} {l : List Str} (h : l.Nodup) : (setAdd y l).Nodup := by
  unfold setAdd
  by_cases hy : y ∈ l
  · simpa [hy] using h
  · simp only [if_neg hy]
    exact List.nodup_append.mpr ⟨h, List.nodup_singleton y, by simpa [List.disjoint_singleton] using hy⟩

/-- A fold whose step preserves a property preserves it overall. -/
theorem foldl_pres {α β : Type} {P : β → Prop} {step : β → α → β}
    (h : ∀ acc a, P acc → P (step acc a)) :
    ∀ (l : List α) (acc : β), P acc → P (l.foldl step acc)
  | [], _, hp => hp
  | a :: rest, acc, hp => foldl_pres h rest (step acc a) (h acc a hp)

/-- containsSub decides the infix relation (Python substring test). -/
theorem containsSub_iff {n : Str} : ∀ {h : Str}, containsSub n h = true ↔ n <:+: h := by
  intro h
  induction h with
  | nil =>
    simp [containsSub, List.isEmpty_iff]
  | cons c t ih =>
    simp [containsSub, ih, List.isPrefixOf_iff_prefix, List.infix_cons_iff]

/-- Lowercasing preserves the infix relation. -/
theorem infix_lowerStr {a b : Str} (h : a <:+: b) : lowerStr a <:+: lowerStr b := by
  obtain ⟨p, q, hpq⟩ := h
  exact ⟨p.map Char.toLower, q.map Char.toLower, by rw [← hpq]; simp [lowerStr]⟩

/-- Stripping yields an infix of the original string. -/
theorem infix_pyStrip (s : Str) : pyStrip s <:+: s := by
  unfold pyStrip
  have h1 := List.rdropWhile_prefix wsC (s.dropWhile wsC)
  have h2 : (s.dropWhile wsC) <:+ s := List.dropWhile_suffix wsC
  exact h1.isInfix.trans h2.isInfix

/-- The no-University property at the heart of claim C7, phrased the way
every source-side check computes it. -/
def noUniv (s : Str) : Prop := containsSub (str "university") (lowerStr s) = false

/-- A candidate that passed the indicator check has no University. -/
theorem noUniv_of_anyIndicator {s : Str} (h : anyIndicator s = false) : noUniv s := by
  have hmem : str "University" ∈ non_company_indicators := by decide
  have h1 := List.any_eq_false.mp h (str "University") hmem
  have h2 : lowerStr (str "University") = str "university" := by decide
  unfold noUniv
  rw [← h2]
  exact Bool.not_eq_true _ ▸ (by simpa using h1)

/-- noUniv transfers along the infix relation. -/
theorem noUniv_mono {a b : Str} (hab : a <:+: b) (hb : noUniv b) : noUniv a := by
  unfold noUniv at *
  by_contra hc
  have h1 : containsSub (str "university") (lowerStr a) = true := by
    cases hx : containsSub (str "university") (lowerStr a) with
    | false => exact absurd hx hc
    | true => rfl
  have h2 : str "university" <:+: lowerStr b :=
    (containsSub_iff.mp h1).trans (infix_lowerStr hab)
  rw [← containsSub_iff] at h2
  rw [h2] at hb
  exact Bool.true_eq_false.mp hb

/-- noUniv rules out the capitalised substring of the claim. -/
theorem not_univ_of_noUniv {s : Str} (h : noUniv s) : ¬ (str "University" <:+: s) := by
  intro hinf
  have h1 : lowerStr (str "University") <:+: lowerStr s := infix_lowerStr hinf
  have h2 : lowerStr (str "University") = str "university" := by decide
  rw [h2, ← containsSub_iff] at h1
  unfold noUniv at h
  rw [h1] at h
  exact Bool.true_eq_false.mp h

/-- Everything in a list has no University. -/
def allNoUniv (l : List Str) : Prop := ∀ x ∈ l, noUniv x

/-- Set insertion of a no-University candidate keeps the invariant. -/
theorem allNoUniv_setAdd {y : Str} {l : List Str} (hy : noUniv y) (hl : allNoUniv l) :
    allNoUniv (setAdd y l) := by
  intro x hx
  rcases mem_setAdd hx with h | h
  · exact h ▸ hy
  · exact hl x h

/-- Boolean helper: a non-true Bool is false. -/
theorem bool_eq_false {b : Bool} (h : ¬ b = true) : b = false := by
  cases b
  · rfl
  · exact absurd rfl h

/-- An ORG entity kept by generation source 3 passed the indicator
check. -/
theorem orgKeep_noUniv {e : Ent} (h : orgKeep e = true) : noUniv e.text := by
  unfold orgKeep at h
  simp only [Bool.and_eq_true, Bool.not_eq_true', Bool.or_eq_false_iff] at h
  exact noUniv_of_anyIndicator h.2.1.1

/-- Generation source 1 preserves the no-University invariant. -/
theorem suffixPhase_allNoUniv (text : Str) {acc : List Str} (h : allNoUniv acc) :
    allNoUniv (suffixPhase text acc) := by
  unfold suffixPhase
  refine foldl_pres ?_ _ _ h
  intro acc1 suf h1
  refine foldl_pres ?_ _ _ h1
  intro acc2 m h2
  show allNoUniv (if anyIndicator (pyStrip m ++ str " " ++ suf) then acc2
    else setAdd (pyStrip m ++ str " " ++ suf) acc2)
  by_cases hi : anyIndicator (pyStrip m ++ str " " ++ suf) = true
  · rw [if_pos hi]
    exact h2
  · rw [if_neg hi]
    exact allNoUniv_setAdd (noUniv_of_anyIndicator (bool_eq_false hi)) h2

/-- Generation source 2 preserves the no-University invariant. -/
theorem employPhase_allNoUniv (text : Str) {acc : List Str} (h : allNoUniv acc) :
    allNoUniv (employPhase text acc) := by
  unfold employPhase
  refine foldl_pres ?_ _ _ h
  intro acc1 p h1
  refine foldl_pres ?_ _ _ h1
  intro acc2 m h2
  show allNoUniv (if anyIndicator m then acc2 else setAdd (pyStrip m) acc2)
  by_cases hi : anyIndicator m = true
  · rw [if_pos hi]
    exact h2
  · rw [if_neg hi]
    exact allNoUniv_setAdd
      (noUniv_mono (infix_pyStrip m) (noUniv_of_anyIndicator (bool_eq_false hi))) h2

/-- Generation source 3 preserves the no-University invariant. -/
theorem orgPhase_allNoUniv (ents : List Ent) {acc : List Str} (h : allNoUniv acc) :
    allNoUniv (orgPhase ents acc) := by
  unfold orgPhase
  refine foldl_pres ?_ _ _ h
  intro acc1 e h1
  show allNoUniv (if e.label = str "ORG" then
      (if orgKeep e then setAdd e.text acc1 else acc1) else acc1)
  by_cases hl : e.label = str "ORG"
  · rw [if_pos hl]
    by_cases hk : orgKeep e = true
    · rw [if_pos hk]
      exact allNoUniv_setAdd (orgKeep_noUniv hk) h1
    · rw [if_neg hk]
      exact h1
  · rw [if_neg hl]
    exact h1

/-- Every candidate in the companies set has no University. -/
theorem companiesSet_allNoUniv (ents : List Ent) (text : Str) :
    allNoUniv (companiesSet ents text) :=
  orgPhase_allNoUniv ents
    (employPhase_allNoUniv text
      (suffixPhase_allNoUniv text (fun x hx => absurd hx (List.not_mem_nil x))))

/-- Every fallback entity text has no University. -/
theorem fallbackCompanies_allNoUniv (ents : List Ent) :
    allNoUniv (fallbackCompanies ents) := by
  intro x hx
  unfold fallbackCompanies at hx
  obtain ⟨e, _, he⟩ := List.mem_filterMap.mp hx
  by_cases hl : e.label = str "ORG"
  · rw [if_pos hl] at he
    by_cases hlen : 4 ≤ e.text.length
    · rw [if_pos hlen] at he
      by_cases ht : fallback_terms.any (fun w => containsSub w (lowerStr e.text)) = true
      · rw [if_pos ht] at he
        exact absurd he (by simp)
      · rw [if_neg ht] at he
        have hx' : x = e.text := by
          simpa using he.symm
        have hmem : str "university" ∈ fallback_terms := by decide
        have := List.any_eq_false.mp (bool_eq_false ht) (str "university") hmem
        unfold noUniv
        rw [hx']
        exact bool_eq_false (by simpa using this)
    · rw [if_neg hlen] at he
      exact absurd he (by simp)
  · rw [if_neg hl] at he
    exact absurd he (by simp)

/-- Case analysis on the three return branches of extract_companies. -/
theorem extract_companies_cases (doc : Doc) (text : Str) :
    (filteredCompanies doc.ents text ≠ [] ∧
      extract_companies doc text = pySorted (filteredCompanies doc.ents text)) ∨
    (filteredCompanies doc.ents text = [] ∧ fallbackCompanies doc.ents ≠ [] ∧
      extract_companies doc text = fallbackCompanies doc.ents) ∨
    (filteredCompanies doc.ents text = [] ∧ fallbackCompanies doc.ents = [] ∧
      extract_companies doc text = [noCompaniesSentinel]) := by
  unfold extract_companies
  by_cases hf : filteredCompanies doc.ents text = []
  · by_cases hfb : fallbackCompanies doc.ents = []
    · exact Or.inr (Or.inr ⟨hf, hfb, by rw [if_pos hf, if_pos hfb]⟩)
    · exact Or.inr (Or.inl ⟨hf, hfb, by rw [if_pos hf, if_neg hfb]⟩)
  · exact Or.inl ⟨hf, by rw [if_neg hf]⟩

/-- Generation source 1 keeps the candidate list duplicate-free. -/
theorem suffixPhase_nodup (text : Str) {acc : List Str} (h : acc.Nodup) :
    (suffixPhase text acc).Nodup := by
  unfold suffixPhase
  refine foldl_pres ?_ _ _ h
  intro acc1 suf h1
  refine foldl_pres ?_ _ _ h1
  intro acc2 m h2
  show ((if anyIndicator (pyStrip m ++ str " " ++ suf) then acc2
    else setAdd (pyStrip m ++ str " " ++ suf) acc2)).Nodup
  by_cases hi : anyIndicator (pyStrip m ++ str " " ++ suf) = true
  · rw [if_pos hi]; exact h2
  · rw [if_neg hi]; exact nodup_setAdd h2

/-- Generation source 2 keeps the candidate list duplicate-free. -/
theorem employPhase_nodup (text : Str) {acc : List Str} (h : acc.Nodup) :
    (employPhase text acc).Nodup := by
  unfold employPhase
  refine foldl_pres ?_ _ _ h
  intro acc1 p h1
  refine foldl_pres ?_ _ _ h1
  intro acc2 m h2
  show ((if anyIndicator m then acc2 else setAdd (pyStrip m) acc2)).Nodup
  by_cases hi : anyIndicator m = true
  · rw [if_pos hi]; exact h2
  · rw [if_neg hi]; exact nodup_setAdd h2

/-- Generation source 3 keeps the candidate list duplicate-free. -/
theorem orgPhase_nodup (ents : List Ent) {acc : List Str} (h : acc.Nodup) :
    (orgPhase ents acc).Nodup := by
  unfold orgPhase
  refine foldl_pres ?_ _ _ h
  intro acc1 e h1
  show ((if e.label = str "ORG" then
      (if orgKeep e then setAdd e.text acc1 else acc1) else acc1)).Nodup
  by_cases hl : e.label = str "ORG"
  · rw [if_pos hl]
    by_cases hk : orgKeep e = true
    · rw [if_pos hk]; exact nodup_setAdd h1
    · rw [if_neg hk]; exact h1
  · rw [if_neg hl]; exact h1

/-- The candidate set is duplicate-free. -/
theorem companiesSet_nodup (ents : List Ent) (text : Str) :
    (companiesSet ents text).Nodup :=
  orgPhase_nodup ents (employPhase_nodup text (suffixPhase_nodup text List.nodup_nil))

/-- The filtered candidate list is duplicate-free. -/
theorem filteredCompanies_nodup (ents : List Ent) (text : Str) :
    (filteredCompanies ents text).Nodup :=
  List.Nodup.filter _ (companiesSet_nodup ents text)

/-- The vocabulary pass builds a duplicate-free list. -/
theorem skillsVocabPass_nodup (text : Str) : (skillsVocabPass text).Nodup := by
  unfold skillsVocabPass
  refine foldl_pres ?_ _ _ List.nodup_nil
  intro acc sk h
  show ((if wbSearch sk none (lowerStr text) then setAdd sk acc else acc)).Nodup
  by_cases hw : wbSearch sk none (lowerStr text) = true
  · rw [if_pos hw]; exact nodup_setAdd h
  · rw [if_neg hw]; exact h

/-- The ORG pass keeps the list duplicate-free. -/
theorem skillsOrgPass_nodup (ents : List Ent) {acc : List Str} (h : acc.Nodup) :
    (skillsOrgPass ents acc).Nodup := by
  unfold skillsOrgPass
  refine foldl_pres ?_ _ _ h
  intro acc1 e h1
  show ((if e.label = str "ORG" then
      (if lowerStr e.text ∈ tech_skills then setAdd e.text acc1 else acc1) else acc1)).Nodup
  by_cases hl : e.label = str "ORG"
  · rw [if_pos hl]
    by_cases hm : lowerStr e.text ∈ tech_skills
    · rw [if_pos hm]; exact nodup_setAdd h1
    · rw [if_neg hm]; exact h1
  · rw [if_neg hl]; exact h1

/-- The language pass keeps the list duplicate-free. -/
theorem skillsLangPass_nodup (text : Str) {acc : List Str} (h : acc.Nodup) :
    (skillsLangPass text acc).Nodup := by
  unfold skillsLangPass
  refine foldl_pres ?_ _ _ h
  intro acc1 lg h1
  exact nodup_setAdd h1

/-- Insertion produces a permutation of the cons. -/
theorem insSorted_perm (x : Str) : ∀ l : List Str, List.Perm (insSorted x l) (x :: l) := by
  intro l
  induction l with
  | nil => exact List.Perm.refl _
  | cons y rest ih =>
    show List.Perm (if lexLe x y then x :: y :: rest else y :: insSorted x rest) (x :: y :: rest)
    by_cases h : lexLe x y = true
    · rw [if_pos h]
    · rw [if_neg h]
      exact (List.Perm.cons y ih).trans (List.Perm.swap x y rest)

/-- The sort is a permutation of its input. -/
theorem pySorted_perm : ∀ l : List Str, List.Perm (pySorted l) l := by
  intro l
  induction l with
  | nil => exact List.Perm.refl _
  | cons x rest ih =>
    exact (insSorted_perm x (pySorted rest)).trans (List.Perm.cons x ih)

/-- The skills output is duplicate-free. -/
theorem extract_skills_nodup (doc : Doc) (text : Str) : (extract_skills doc text).Nodup := by
  unfold extract_skills
  exact (pySorted_perm _).symm.nodup
    (skillsLangPass_nodup text (skillsOrgPass_nodup doc.ents (skillsVocabPass_nodup text)))

/-- Decomposition of the degree loop: it appends a duplicate-free
subsequence of the degree matches, each absent from the accumulator. -/
theorem eduFoldDeg_decomp : ∀ (l acc : List Str), ∃ ds,
    eduFoldDeg acc l = acc ++ ds ∧ ds.Sublist l ∧ ds.Nodup ∧ ∀ x ∈ ds, x ∉ acc := by
  intro l
  induction l with
  | nil =>
    intro acc
    exact ⟨[], by simp [eduFoldDeg], List.nil_sublist _, List.nodup_nil, by simp⟩
  | cons d rest ih =>
    intro acc
    show ∃ ds, eduFoldDeg (if d ∈ acc then acc else acc ++ [d]) rest = acc ++ ds ∧ _
    by_cases hd : d ∈ acc
    · obtain ⟨ds, h1, h2, h3, h4⟩ := ih acc
      rw [if_pos hd]
      exact ⟨ds, h1, h2.cons d, h3, h4⟩
    · obtain ⟨ds, h1, h2, h3, h4⟩ := ih (acc ++ [d])
      rw [if_neg hd]
      refine ⟨d :: ds, ?_, h2.cons₂ d, ?_, ?_⟩
      · rw [h1]
        simp
      · refine List.nodup_cons.mpr ⟨fun hmem => ?_, h3⟩
        exact h4 d hmem (by simp)
      · intro x hx
        rcases List.mem_cons.mp hx with h | h
        · exact h ▸ hd
        · intro hxa
          exact h4 x h (by simp [hxa])

/-- Decomposition of the major loop: it appends a subsequence of the
major matches with "in " replaced away. -/
theorem eduFoldMaj_decomp : ∀ (l acc : List Str), ∃ ms,
    eduFoldMaj acc l = acc ++ ms ∧ ms.Sublist (l.map (replaceAll (str "in ") [])) := by
  intro l
  induction l with
  | nil =>
    intro acc
    exact ⟨[], by simp [eduFoldMaj], List.nil_sublist _⟩
  | cons m rest ih =>
    intro acc
    show ∃ ms, eduFoldMaj (if m ∈ acc then acc
      else acc ++ [replaceAll (str "in ") [] m]) rest = acc ++ ms ∧ _
    by_cases hm : m ∈ acc
    · obtain ⟨ms, h1, h2⟩ := ih acc
      rw [if_pos hm]
      exact ⟨ms, h1, by simpa using h2.cons (replaceAll (str "in ") [] m)⟩
    · obtain ⟨ms, h1, h2⟩ := ih (acc ++ [replaceAll (str "in ") [] m])
      rw [if_neg hm]
      refine ⟨replaceAll (str "in ") [] m :: ms, ?_, ?_⟩
      · rw [h1]
        simp
      · simpa using h2.cons₂ (replaceAll (str "in ") [] m)

/-- lexLe is total. -/
theorem lexLe_total : ∀ a b : Str, lexLe a b || lexLe b a := by
  intro a
  induction a with
  | nil =>
    intro b
    simp [lexLe]
  | cons c ta ih =>
    intro b
    cases b with
    | nil => simp [lexLe]
    | cons d tb =>
      by_cases h1 : c.toNat < d.toNat
      · simp [lexLe, h1]
      · by_cases h2 : d.toNat < c.toNat
        · simp [lexLe, h1, h2]
        · simpa [lexLe, h1, h2] using ih tb

/-- lexLe is transitive. -/
theorem lexLe_trans : ∀ a b c : Str, lexLe a b → lexLe b c → lexLe a c := by
  intro a
  induction a with
  | nil =>
    intro b c _ _
    simp [lexLe]
  | cons x ta ih =>
    intro b c hab hbc
    cases b with
    | nil => simp [lexLe] at hab
    | cons y tb =>
      cases c with
      | nil => simp [lexLe] at hbc
      | cons z tc =>
        by_cases hxy : x.toNat < y.toNat
        · by_cases hyz : y.toNat < z.toNat
          · simp [lexLe, show x.toNat < z.toNat by omega]
          · by_cases hzy : z.toNat < y.toNat
            · simp [lexLe, hyz, hzy] at hbc
            · simp [lexLe, show x.toNat < z.toNat by omega]
        · by_cases hyx : y.toNat < x.toNat
          · simp [lexLe, hxy, hyx] at hab
          · by_cases hyz : y.toNat < z.toNat
            · simp [lexLe, show x.toNat < z.toNat by omega]
            · by_cases hzy : z.toNat < y.toNat
              · simp [lexLe, hyz, hzy] at hbc
              · have hab' : lexLe ta tb := by simpa [lexLe, hxy, hyx] using hab
                have hbc' : lexLe tb tc := by simpa [lexLe, hyz, hzy] using hbc
                have hxz : ¬ x.toNat < z.toNat := by omega
                have hzx : ¬ z.toNat < x.toNat := by omega
                simpa [lexLe, hxz, hzx] using ih tb tc hab' hbc'

/-- Insertion into a sorted list keeps it sorted. -/
theorem insSorted_sorted (x : Str) : ∀ l : List Str,
    l.Pairwise (fun a b => lexLe a b = true) →
    (insSorted x l).Pairwise (fun a b => lexLe a b = true) := by
  intro l
  induction l with
  | nil =>
    intro _
    simp [insSorted]
  | cons y rest ih =>
    intro hl
    obtain ⟨hy, hrest⟩ := List.pairwise_cons.mp hl
    show ((if lexLe x y then x :: y :: rest else y :: insSorted x rest)).Pairwise _
    by_cases h : lexLe x y = true
    · rw [if_pos h]
      refine List.pairwise_cons.mpr ⟨?_, hl⟩
      intro z hz
      rcases List.mem_cons.mp hz with hz | hz
      · rw [hz]
        exact h
      · exact lexLe_trans x y z h (hy z hz)
    · rw [if_neg h]
      have hyx : lexLe y x = true := by
        have := lexLe_total x y
        rcases Bool.or_eq_true_iff.mp this with h1 | h1
        · exact absurd h1 h
        · exact h1
      refine List.pairwise_cons.mpr ⟨?_, ih hrest⟩
      intro z hz
      have hz' : z ∈ x :: rest := ((insSorted_perm x rest).mem_iff).mp hz
      rcases List.mem_cons.mp hz' with hz' | hz'
      · rw [hz']
        exact hyx
      · exact hy z hz'

/-- The sort output is sorted (alphabetically ascending by lexLe). -/
theorem pySorted_sorted : ∀ l : List Str,
    (pySorted l).Pairwise (fun a b => lexLe a b = true) := by
  intro l
  induction l with
  | nil => simp [pySorted]
  | cons x rest ih => exact insSorted_sorted x (pySorted rest) ih

/-- The initial accumulator is below the fold of Nat.max. -/
theorem le_foldl_max : ∀ (l : List Nat) (a : Nat), a ≤ l.foldl Nat.max a := by
  intro l
  induction l with
  | nil => intro a; simp
  | cons x rest ih =>
    intro a
    calc a ≤ Nat.max a x := Nat.le_max_left a x
    _ ≤ rest.foldl Nat.max (Nat.max a x) := ih (Nat.max a x)

/-- Every member is below the fold of Nat.max. -/
theorem mem_le_foldl_max : ∀ (l : List Nat) (a v : Nat), v ∈ l → v ≤ l.foldl Nat.max a := by
  intro l
  induction l with
  | nil => intro a v hv; exact absurd hv (List.not_mem_nil v)
  | cons x rest ih =>
    intro a v hv
    rcases List.mem_cons.mp hv with h | h
    · subst h
      calc v ≤ Nat.max a v := Nat.le_max_right a v
      _ ≤ rest.foldl Nat.max (Nat.max a v) := le_foldl_max rest (Nat.max a v)
    · exact ih (Nat.max a x) v h

/-- Stable insertion never yields the empty list. -/
theorem insLenDesc_ne_nil (x : Str) : ∀ l : List Str, insLenDesc x l ≠ [] := by
  intro l
  cases l with
  | nil => simp [insLenDesc]
  | cons y rest =>
    show (if x.length < y.length then y :: insLenDesc x rest else x :: y :: rest) ≠ []
    by_cases h : x.length < y.length
    · simp [h]
    · simp [h]

/-- A stable descending sort of a non-empty list is non-empty. -/
theorem sortLenDesc_ne_nil : ∀ l : List Str, l ≠ [] → sortLenDesc l ≠ [] := by
  intro l h
  cases l with
  | nil => exact absurd rfl h
  | cons x xs =>
    show insLenDesc x (sortLenDesc xs) ≠ []
    exact insLenDesc_ne_nil x _

/-- The head of the stable descending sort is the first element of
maximal length: the original list splits around it with a strictly
shorter prefix, and it dominates every element. -/
theorem sortLenDesc_first : ∀ l : List Str, l ≠ [] → ∃ l1 l2,
    l = l1 ++ ((sortLenDesc l).headD []) :: l2 ∧
    (∀ t ∈ l1, t.length < ((sortLenDesc l).headD []).length) ∧
    (∀ t ∈ l, t.length ≤ ((sortLenDesc l).headD []).length) := by
  intro l
  induction l with
  | nil => intro h; exact absurd rfl h
  | cons x xs ih =>
    intro _
    cases hxs : xs with
    | nil =>
      refine ⟨[], [], ?_, by simp, ?_⟩
      · simp [sortLenDesc, insLenDesc]
      · simp [sortLenDesc, insLenDesc]
    | cons y ys =>
      have hne : xs ≠ [] := by rw [hxs]; exact List.cons_ne_nil y ys
      rw [← hxs]
      obtain ⟨l1, l2, hdec, hlt, hle⟩ := ih hne
      have hsne : sortLenDesc xs ≠ [] := sortLenDesc_ne_nil xs hne
      obtain ⟨h', t', hst⟩ := List.exists_cons_of_ne_nil hsne
      have hhead : (sortLenDesc xs).headD [] = h' := by rw [hst]; rfl
      rw [hhead] at hdec hlt hle
      have hx : (sortLenDesc (x :: xs)).headD [] =
          (if x.length < h'.length then h' else x) := by
        show (insLenDesc x (sortLenDesc xs)).headD [] = _
        rw [hst]
        show ((if x.length < h'.length then h' :: insLenDesc x t'
          else x :: h' :: t').headD []) = _
        by_cases hcmp : x.length < h'.length
        · rw [if_pos hcmp, if_pos hcmp]
          rfl
        · rw [if_neg hcmp, if_neg hcmp]
          rfl
      rw [hx]
      by_cases hcmp : x.length < h'.length
      · rw [if_pos hcmp]
        refine ⟨x :: l1, l2, ?_, ?_, ?_⟩
        · rw [List.cons_append, ← hdec]
        · intro t ht
          rcases List.mem_cons.mp ht with h | h
          · subst h; exact hcmp
          · exact hlt t h
        · intro t ht
          rcases List.mem_cons.mp ht with h | h
          · subst h; exact Nat.le_of_lt hcmp
          · exact hle t h
      · rw [if_neg hcmp]
        refine ⟨[], xs, by simp, by simp, ?_⟩
        intro t ht
        rcases List.mem_cons.mp ht with h | h
        · subst h; exact Nat.le_refl _
        · calc t.length ≤ h'.length := hle t h
          _ ≤ x.length := Nat.le_of_not_lt hcmp

/-- Specification of the final-part choice: a successful pick is at least
2 and at most the starting length. -/
theorem tldPick_spec : ∀ (n : Nat) {run : Str} {after : Option Char} {m : Nat},
    tldPick run after n = some m → 2 ≤ m ∧ m ≤ n := by
  intro n
  induction n with
  | zero => intro run after m h; exact absurd h (by simp [tldPick])
  | succ n' ih =>
    intro run after m h
    cases n' with
    | zero => exact absurd h (by simp [tldPick])
    | succ n'' =>
      unfold tldPick at h
      by_cases hc : atBnd run[n'' + 1]? (if n'' + 2 = run.length then after else run[n'' + 2]?) = true
      · rw [if_pos hc] at h
        injection h with h'
        subst h'
        omega
      · rw [if_neg hc] at h
        have := ih h
        omega

/-- Specification of tldFrom: a successful final part has length between
2 and the maximal final-class run. -/
theorem tldFrom_spec {t : Str} {m : Nat} (h : tldFrom t = some m) :
    2 ≤ m ∧ m ≤ (t.takeWhile tldC).length := by
  unfold tldFrom at h
  exact tldPick_spec _ h

/-- Specification of the domain choice: a successful pick has a domain
length between 1 and the starting length, a literal dot right after the
domain, and a successful final part after the dot. -/
theorem domPick_spec : ∀ (n : Nat) {s2 : Str} {k m : Nat},
    domPick s2 n = some (k, m) →
    1 ≤ k ∧ k ≤ n ∧ s2[k]? = some '.' ∧ tldFrom (s2.drop (k + 1)) = some m := by
  intro n
  induction n with
  | zero => intro s2 k m h; exact absurd h (by simp [domPick])
  | succ n' ih =>
    intro s2 k m h
    unfold domPick at h
    split at h
    · rename_i hdot
      split at h
      · rename_i m' htld
        injection h with h'
        injection h' with h1 h2
        subst h1
        subst h2
        exact ⟨by omega, Nat.le_refl _, hdot, htld⟩
      · obtain ⟨a, b, c, d⟩ := ih h
        exact ⟨a, by omega, c, d⟩
    · obtain ⟨a, b, c, d⟩ := ih h
      exact ⟨a, by omega, c, d⟩

/-- All characters of a take within the takeWhile run satisfy the
predicate. -/
theorem mem_take_of_le_takeWhile {p : Char → Bool} (s : Str) (k : Nat)
    (hk : k ≤ (s.takeWhile p).length) : ∀ c ∈ s.take k, p c = true := by
  intro c hc
  have heq : s.take k = (s.takeWhile p).take k := by
    conv_lhs => rw [← List.takeWhile_append_dropWhile p s]
    rw [List.take_append_of_le_length hk]
  rw [heq] at hc
  exact List.mem_takeWhile_imp (List.take_subset k _ hc)

/-- Inversion of one email attempt: the returned match decomposes into
local part, at sign, domain, dot and final part with all the class and
length facts. -/
theorem emailAt_spec {prev : Option Char} {s r : Str} (h : emailAt prev s = some r) :
    ∃ s2 k m,
      s.drop (s.takeWhile localC).length = '@' :: s2 ∧
      r = s.takeWhile localC ++ '@' :: (s2.take k ++ '.' :: (s2.drop (k + 1)).take m) ∧
      s.takeWhile localC ≠ [] ∧
      1 ≤ k ∧ k ≤ (s2.takeWhile domC).length ∧ s2[k]? = some '.' ∧
      2 ≤ m ∧ m ≤ ((s2.drop (k + 1)).takeWhile tldC).length := by
  unfold emailAt at h
  by_cases hb : atBnd prev s.head? = true
  · rw [if_pos hb] at h
    by_cases hloc : s.takeWhile localC = []
    · rw [if_pos hloc] at h
      exact absurd h (by simp)
    · rw [if_neg hloc] at h
      split at h
      · rename_i s2 heq
        split at h
        · rename_i k m hdom
          injection h with h'
          obtain ⟨h1, h2, h3, h4⟩ := domPick_spec _ hdom
          obtain ⟨h5, h6⟩ := tldFrom_spec h4
          exact ⟨s2, k, m, heq, h'.symm, hloc, h1, h2, h3, h5, h6⟩
        · exact absurd h (by simp)
      · exact absurd h (by simp)
  · rw [if_neg hb] at h
    exact absurd h (by simp)

/-- The match returned by an attempt is a prefix of the text at that
position. -/
theorem emailAt_takes {prev : Option Char} {s r : Str} (h : emailAt prev s = some r) :
    ∃ rest, s = r ++ rest := by
  obtain ⟨s2, k, m, heq, hr, hloc, hk1, hk2, hdot, hm2, hm6⟩ := emailAt_spec h
  refine ⟨(s2.drop (k + 1)).drop m, ?_⟩
  have hklen : k < s2.length := (List.getElem?_eq_some_iff.mp hdot).1
  have hgetk : s2[k] = '.' := (List.getElem?_eq_some_iff.mp hdot).2
  have hdropk : s2.drop k = '.' :: s2.drop (k + 1) := by
    rw [List.drop_eq_getElem_cons hklen, hgetk]
  have hstake : s.take (s.takeWhile localC).length = s.takeWhile localC :=
    (List.prefix_iff_eq_take.mp (List.takeWhile_prefix localC)).symm
  have hs : s = s.takeWhile localC ++ '@' :: s2 := by
    conv_lhs => rw [← List.take_append_drop (s.takeWhile localC).length s]
    rw [hstake, heq]
  have hs2 : s2 = s2.take k ++ '.' :: ((s2.drop (k + 1)).take m ++ (s2.drop (k + 1)).drop m) := by
    conv_lhs => rw [← List.take_append_drop k s2]
    rw [hdropk, List.take_append_drop]
  rw [hs, hr]
  conv_lhs => rw [hs2]
  simp

/-- The element at a position, read off a drop decomposition. -/
theorem getElem?_of_drop_cons : ∀ {text : Str} {i : Nat} {c : Char} {rest : Str},
    text.drop i = c :: rest → text[i]? = some c := by
  intro text
  induction text with
  | nil =>
    intro i c rest h
    rw [List.drop_nil] at h
    exact absurd h (by simp)
  | cons t ts ih =>
    intro i c rest h
    cases i with
    | zero =>
      rw [List.drop_zero] at h
      injection h with h1 _
      simp [h1]
    | succ i' =>
      have h' : ts.drop i' = c :: rest := by simpa using h
      simpa using ih h'

/-- Dropping one more, read off a drop decomposition. -/
theorem drop_succ_of_drop_cons {text : Str} {i : Nat} {c : Char} {rest : Str}
    (h : text.drop i = c :: rest) : text.drop (i + 1) = rest := by
  have h2 : text.drop (i + 1) = (text.drop i).drop 1 := by rw [List.drop_drop]
  rw [h2, h]
  rfl

/-- The character before position i of a text (none at position 0), the
prev argument the scan threads for word boundaries. -/
def charBefore (s : Str) (i : Nat) : Option Char := if i = 0 then none else s[i - 1]?

/-- The scan finds a match exactly at the first matching position at or
after its current one. -/
theorem emailScan_spec : ∀ (s : Str) (prev : Option Char) (text : Str) (i : Nat) (r : Str),
    text.drop i = s → charBefore text i = prev → emailScan prev s = some r →
    ∃ j, i ≤ j ∧ emailAt (charBefore text j) (text.drop j) = some r ∧
      ∀ j', i ≤ j' → j' < j → emailAt (charBefore text j') (text.drop j') = none := by
  intro s
  induction s with
  | nil =>
    intro prev text i r hdrop hprev hscan
    have hat : emailAt prev [] = some r := hscan
    refine ⟨i, Nat.le_refl i, ?_, ?_⟩
    · rw [hprev, hdrop]
      exact hat
    · intro j' h1 h2
      omega
  | cons c rest ih =>
    intro prev text i r hdrop hprev hscan
    unfold emailScan at hscan
    cases hat : emailAt prev (c :: rest) with
    | some r' =>
      rw [hat] at hscan
      injection hscan with h'
      subst h'
      exact ⟨i, Nat.le_refl i, by rw [hprev, hdrop]; exact hat,
        fun j' h1 h2 => absurd h2 (by omega)⟩
    | none =>
      rw [hat] at hscan
      have hdrop' : text.drop (i + 1) = rest := drop_succ_of_drop_cons hdrop
      have hget : text[i]? = some c := getElem?_of_drop_cons hdrop
      have hprev' : charBefore text (i + 1) = some c := by simp [charBefore, hget]
      obtain ⟨j, hij, hj, hnone⟩ := ih (some c) text (i + 1) r hdrop' hprev' hscan
      refine ⟨j, by omega, hj, ?_⟩
      intro j' h1 h2
      by_cases hji : j' = i
      · subst hji
        rw [hprev, hdrop]
        exact hat
      · exact hnone j' (by omega) h2

/-- takeWhile over a list of satisfying elements followed by a stopper. -/
theorem takeWhile_all_stop {p : Char → Bool} : ∀ (l1 : Str) (x : Char) (l2 : Str),
    (∀ c ∈ l1, p c = true) → p x = false → List.takeWhile p (l1 ++ x :: l2) = l1 := by
  intro l1
  induction l1 with
  | nil =>
    intro x l2 _ hx
    simp [List.takeWhile_cons, hx]
  | cons a l1' ih =>
    intro x l2 hall hx
    have ha : p a = true := hall a (by simp)
    simp [List.takeWhile_cons, ha, ih x l2 (fun c hc => hall c (by simp [hc])) hx]

/-- The token after the final dot of a string ending in a dot-free
suffix is exactly that suffix. -/
theorem afterLastDot_append {xs fin : Str} (hfin : ∀ c ∈ fin, ¬ c = '.') :
    afterLastDot (xs ++ '.' :: fin) = fin := by
  unfold afterLastDot
  rw [List.reverse_append, List.reverse_cons, List.append_assoc, List.singleton_append]
  rw [takeWhile_all_stop fin.reverse '.' xs.reverse ?h1 ?h2]
  · exact List.reverse_reverse fin
  case h1 =>
    intro c hc
    have := hfin c (List.mem_reverse.mp hc)
    simp [this]
  case h2 => simp


/-! ### Concrete fixtures used by the claim theorems -/

/-- Counterexample text for claim C1: an explicit phrase parsing to 0
followed by a closed date range. -/
def c1text : Str := str "0 years of experience Jan 2019 - Dec 2020"

/-- The text of the C4 test sentence. -/
def c4text : Str := str "Experienced in Python, C++ and node.js"

/-- Counterexample text for claim C6: an open-ended date range. -/
def c6text : Str := str "Jan 2019 - Present"

/-- A document with one educational ORG, one degree phrase and one major
phrase, for claim C9. -/
def eduDoc : Doc :=
  ⟨str "Harvard University Bachelor in Physics",
   [⟨str "Harvard University", str "ORG"⟩]⟩

/-- A document whose entity list repeats one educational ORG, for the
claim C3 counterexample. -/
def dupDoc : Doc := ⟨[], [⟨str "MIT School", str "ORG"⟩, ⟨str "MIT School", str "ORG"⟩]⟩

/-- A document with one suffix-bearing ORG entity, driving the primary
path of the companies extractor. -/
def acmeDoc : Doc := ⟨[], [⟨str "Acme Inc", str "ORG"⟩]⟩

/-- A document with two plain ORG entities in anti-alphabetical order,
driving the fallback path of the companies extractor. -/
def fbDoc : Doc := ⟨[], [⟨str "Zeta", str "ORG"⟩, ⟨str "Alpha", str "ORG"⟩]⟩

/-- The empty document. -/
def emptyDoc : Doc := ⟨[], []⟩

/-- The two-PERSON document of claim C10. -/
def jonDoc : Doc :=
  ⟨[], [⟨str "Jon", str "PERSON"⟩, ⟨str "Jonathan Michael Smith", str "PERSON"⟩]⟩

/-- Evaluation rule for round2 by bounding the scaled value. -/
theorem round2_eq (z : ℤ) {q : ℚ} (h1 : (z : ℚ) ≤ q * 100 + 1/2)
    (h2 : q * 100 + 1/2 < z + 1) : round2 q = (z : ℚ) / 100 := by
  unfold round2
  rw [round_eq, Int.floor_eq_iff.mpr ⟨h1, h2⟩]

/-- The single tier-2 duration of the C1 counterexample text. -/
theorem c1text_durations : dateDurations c1text 2030 6 = [23/12] := by
  unfold dateDurations
  rw [show findallG4 date_pattern c1text =
    [(str "Jan", str "2019", str "Dec", str "2020")] from by decide]
  rw [List.map_cons, List.map_nil]
  rw [show matchDuration 2030 6 (str "Jan", str "2019", str "Dec", str "2020") = 23/12 from by
    unfold matchDuration
    rw [show monthLookup month_to_num ((str "Jan").take 3) 1 = 1 from by decide]
    rw [show normYear (str "2019") = 2019 from by decide]
    rw [if_neg (show ¬ (str "Dec" = str "Present") from by decide)]
    rw [if_neg (show ¬ (str "Dec" = str "Present") from by decide)]
    rw [show monthLookup month_to_num ((str "Dec").take 3) 12 = 12 from by decide]
    rw [if_neg (show ¬ ((str "2020" : Str) = []) from by decide)]
    rw [show normYear (str "2020") = 2020 from by decide]
    norm_num]
  rw [List.filter_cons]
  simp only [decide_eq_true_eq]
  rw [if_pos (show (0:ℚ) < 23/12 from by norm_num)]
  rw [List.filter_nil]

/-- The single tier-2 duration of the C6 counterexample text at a given
current date (cy, cm): (cy - 2019) + (cm - 1)/12. -/
theorem c6text_duration (cy cm : Nat) :
    matchDuration cy cm (str "Jan", str "2019", str "Present", ([] : Str)) =
      ((cy : ℚ) - 2019) + (((cm : ℚ) - 1) / 12) := by
  unfold matchDuration
  rw [show monthLookup month_to_num ((str "Jan").take 3) 1 = 1 from by decide]
  rw [show normYear (str "2019") = 2019 from by decide]
  rw [if_pos (show (str "Present" : Str) = str "Present" from rfl)]
  rw [if_pos (show (str "Present" : Str) = str "Present" from rfl)]
  norm_num

/-- The tier-2 durations of the C6 text at the beginning of 2024. -/
theorem c6text_durations_2024 : dateDurations c6text 2024 1 = [5] := by
  unfold dateDurations
  rw [show findallG4 date_pattern c6text =
    [(str "Jan", str "2019", str "Present", ([] : Str))] from by decide]
  rw [List.map_cons, List.map_nil, c6text_duration]
  rw [show ((2024 : Nat) : ℚ) - 2019 + (((1 : Nat) : ℚ) - 1) / 12 = 5 from by norm_num]
  rw [List.filter_cons]
  simp only [decide_eq_true_eq]
  rw [if_pos (show (0:ℚ) < 5 from by norm_num)]
  rw [List.filter_nil]

/-- The tier-2 durations of the C6 text at the beginning of 2026. -/
theorem c6text_durations_2026 : dateDurations c6text 2026 1 = [7] := by
  unfold dateDurations
  rw [show findallG4 date_pattern c6text =
    [(str "Jan", str "2019", str "Present", ([] : Str))] from by decide]
  rw [List.map_cons, List.map_nil, c6text_duration]
  rw [show ((2026 : Nat) : ℚ) - 2019 + (((1 : Nat) : ℚ) - 1) / 12 = 7 from by norm_num]
  rw [List.filter_cons]
  simp only [decide_eq_true_eq]
  rw [if_pos (show (0:ℚ) < 7 from by norm_num)]
  rw [List.filter_nil]

/-! ### Claim theorems -/

/-- Claim C1, counterexample: on c1text the Tier-1 patterns do match
(the match list is non-empty) and their maximum is 0, yet the extractor
answers 1.92 from the date-range tier rather than the Tier-1 maximum —
the current-date arguments are irrelevant here since the range is
closed.  So a Tier-1 match does not always settle the answer. -/
theorem c1_tier1_zero_cex :
    tier1Values c1text ≠ [] ∧ tier1Max c1text = 0 ∧
    extract_experience_years c1text 2030 6 = 48 / 25 ∧ ((48 : ℚ) / 25 ≠ 0) := by
  refine ⟨by decide, by decide, ?_, by norm_num⟩
  simp only [extract_experience_years]
  rw [if_pos (show tier1Max c1text = 0 from by decide)]
  rw [c1text_durations]
  rw [if_neg (show ¬ (([23/12] : List ℚ) = []) from by simp)]
  rw [List.foldl_cons, List.foldl_nil]
  rw [show (0:ℚ) + 23/12 = 23/12 from by norm_num]
  rw [round2_eq 192 (by norm_num) (by norm_num)]
  norm_num

/-- Claim C1 (amended): when the Tier-1 maximum is positive it is the
final answer and the date-range tier is not consulted, and that maximum
dominates every parsed Tier-1 match; when the maximum is 0 — no match,
or a match parsing to 0 — the extractor falls through to the date-range
tier. -/
theorem c1_tier1_amended : ∀ (text : Str) (cy cm : Nat),
    (tier1Max text ≠ 0 → extract_experience_years text cy cm = (tier1Max text : ℚ)) ∧
    (∀ v ∈ tier1Values text, v ≤ tier1Max text) := by
  intro text cy cm
  constructor
  · intro h
    simp only [extract_experience_years]
    rw [if_neg h]
  · intro v hv
    show v ≤ (tier1Values text).foldl Nat.max 0
    exact mem_le_foldl_max (tier1Values text) 0 v hv

/-- Witness for the amended claim C1 at a concrete input. -/
theorem c1_tier1_amended_witness :
    extract_experience_years (str "5 years of experience") 2030 6 =
      ((tier1Max (str "5 years of experience") : ℚ)) :=
  (c1_tier1_amended (str "5 years of experience") 2030 6).1 (by decide)

/-- Claim C6, counterexample: with identical text (and no entity input
at all), the ExperienceDuration extractor answers 5 when the current
date is January 2024 but 7 when it is January 2026 — on Present ranges
the result depends on the calendar date, not only on (text, spans). -/
theorem c6_present_date_cex :
    extract_experience_years c6text 2024 1 = 5 ∧
    extract_experience_years c6text 2026 1 = 7 ∧
    extract_experience_years c6text 2024 1 ≠ extract_experience_years c6text 2026 1 := by
  have h24 : extract_experience_years c6text 2024 1 = 5 := by
    simp only [extract_experience_years]
    rw [if_pos (show tier1Max c6text = 0 from by decide)]
    rw [c6text_durations_2024]
    rw [if_neg (show ¬ (([5] : List ℚ) = []) from by simp)]
    rw [List.foldl_cons, List.foldl_nil]
    rw [show (0:ℚ) + 5 = 5 from by norm_num]
    rw [round2_eq 500 (by norm_num) (by norm_num)]
    norm_num
  have h26 : extract_experience_years c6text 2026 1 = 7 := by
    simp only [extract_experience_years]
    rw [if_pos (show tier1Max c6text = 0 from by decide)]
    rw [c6text_durations_2026]
    rw [if_neg (show ¬ (([7] : List ℚ) = []) from by simp)]
    rw [List.foldl_cons, List.foldl_nil]
    rw [show (0:ℚ) + 7 = 7 from by norm_num]
    rw [round2_eq 700 (by norm_num) (by norm_num)]
    norm_num
  refine ⟨h24, h26, ?_⟩
  rw [h24, h26]
  norm_num

/-- Claim C6 (amended): every extractor of the model is a function of
its declared inputs alone; the ExperienceDuration extractor additionally
reads the current calendar date, but whenever Tier 1 produces a positive
value the result is independent of that date. -/
theorem c6_determinism_amended : ∀ (text : Str) (cy cm cy' cm' : Nat),
    tier1Max text ≠ 0 →
    extract_experience_years text cy cm = extract_experience_years text cy' cm' := by
  intro text cy cm cy' cm' h
  simp only [extract_experience_years]
  rw [if_neg h, if_neg h]

/-- Witness for the amended claim C6 at a concrete input. -/
theorem c6_determinism_amended_witness :
    extract_experience_years (str "5 years of experience") 2024 1 =
      extract_experience_years (str "5 years of experience") 2026 6 :=
  c6_determinism_amended (str "5 years of experience") 2024 1 2026 6 (by decide)


/-- Claim C2, counterexample: with no text and the ORG entities Zeta,
Alpha (in that order), the filtered set is empty and the fallback path
returns the raw entities in entity order — Zeta before Alpha — which is
not alphabetically sorted. -/
theorem c2_fallback_unsorted_cex :
    extract_companies fbDoc [] = [str "Zeta", str "Alpha"] ∧
    ¬ (extract_companies fbDoc []).Pairwise (fun a b => lexLe a b = true) := by
  have heq : extract_companies fbDoc [] = [str "Zeta", str "Alpha"] := by decide
  refine ⟨heq, ?_⟩
  intro hp
  rw [heq] at hp
  have := (List.pairwise_cons.mp hp).1 (str "Alpha") (by simp)
  exact absurd this (by decide)

/-- Claim C2 (amended): the primary path returns the filtered set sorted
alphabetically ascending, but the fallback path returns the raw
ORGANIZATION entities in entity order, unsorted; the sentinel is a
one-element list. -/
theorem c2_sorted_amended : ∀ (doc : Doc) (text : Str),
    (filteredCompanies doc.ents text ≠ [] →
      (extract_companies doc text).Pairwise (fun a b => lexLe a b = true)) ∧
    (filteredCompanies doc.ents text = [] → fallbackCompanies doc.ents ≠ [] →
      extract_companies doc text = fallbackCompanies doc.ents) := by
  intro doc text
  rcases extract_companies_cases doc text with ⟨hf, he⟩ | ⟨hf, hfb, he⟩ | ⟨hf, hfb, he⟩
  · refine ⟨fun _ => ?_, fun h1 _ => absurd h1 hf⟩
    rw [he]
    exact pySorted_sorted (filteredCompanies doc.ents text)
  · exact ⟨fun h => absurd hf h, fun _ _ => he⟩
  · exact ⟨fun h => absurd hf h, fun _ h2 => absurd hfb h2⟩

/-- Witness for the amended claim C2: a document whose primary path
fires, with the sorted output. -/
theorem c2_sorted_amended_witness :
    (extract_companies acmeDoc []).Pairwise (fun a b => lexLe a b = true) :=
  (c2_sorted_amended acmeDoc []).1 (by decide)

/-- Claim C3, counterexample: two identical educational ORG entities are
both appended by the educational-ORG pass of the Education extractor,
which performs no duplicate check, so the output holds an exact
duplicate. -/
theorem c3_education_duplicate_cex :
    extract_education dupDoc = [str "MIT School", str "MIT School"] ∧
    ¬ (extract_education dupDoc).Nodup := by
  have heq : extract_education dupDoc = [str "MIT School", str "MIT School"] := by decide
  refine ⟨heq, ?_⟩
  intro hn
  rw [heq] at hn
  exact (List.nodup_cons.mp hn).1 (by simp)

/-- Claim C3 (amended): the Skills output and the primary-path Companies
output contain no exact duplicates, and the degree pass of the Education
extractor appends only entries absent so far (pairwise distinct and
distinct from the educational ORGs); but the educational-ORG pass, the
major pass (whose membership check uses the unstripped match) and the
Companies fallback path can emit exact duplicates. -/
theorem c3_nodup_amended : ∀ (doc : Doc) (text : Str),
    (extract_skills doc text).Nodup ∧
    (filteredCompanies doc.ents text ≠ [] → (extract_companies doc text).Nodup) ∧
    (∃ ds ms, extract_education doc = eduOrgs doc ++ ds ++ ms ∧ ds.Nodup ∧
      ∀ x ∈ ds, x ∉ eduOrgs doc) := by
  intro doc text
  refine ⟨extract_skills_nodup doc text, ?_, ?_⟩
  · intro hf
    rcases extract_companies_cases doc text with ⟨_, he⟩ | ⟨h1, _, _⟩ | ⟨h1, _, _⟩
    · rw [he]
      exact (pySorted_perm _).symm.nodup (filteredCompanies_nodup doc.ents text)
    · exact absurd h1 hf
    · exact absurd h1 hf
  · obtain ⟨ds, h1, _, h3, h4⟩ := eduFoldDeg_decomp (degreesOf doc) (eduOrgs doc)
    obtain ⟨ms, h5, _⟩ :=
      eduFoldMaj_decomp (majorsOf doc) (eduFoldDeg (eduOrgs doc) (degreesOf doc))
    refine ⟨ds, ms, ?_, h3, h4⟩
    unfold extract_education
    rw [h5, h1, List.append_assoc]

/-- Witness for the amended claim C3 at a concrete input on the primary
companies path. -/
theorem c3_nodup_amended_witness : (extract_companies acmeDoc []).Nodup :=
  (c3_nodup_amended acmeDoc []).2.1 (by decide)

/-- Claim C4 (evaluating the code at the failing input): on the test
sentence, with no entity spans, the Skills output is exactly Python,
node.js, python — the vocabulary entries "python" and "node.js" are
found, but "c++" is NOT: the boundary assertion after the escaped "c++"
cannot hold between the plus sign and the following space or comma,
both non-word characters. -/
theorem c4_cplusplus_missing :
    extract_skills ⟨c4text, []⟩ c4text = [str "Python", str "node.js", str "python"] ∧
    str "python" ∈ extract_skills ⟨c4text, []⟩ c4text ∧
    str "node.js" ∈ extract_skills ⟨c4text, []⟩ c4text ∧
    str "c++" ∉ extract_skills ⟨c4text, []⟩ c4text := by
  refine ⟨by decide, by decide, by decide, by decide⟩

/-- Claim C7 (confirmed): no string returned by the Companies extractor
— from the suffix-regex source, the employment-phrase source, the
ORGANIZATION-entity source, after the final filter, on the fallback
path, or as the sentinel — contains the substring University.  Every
generation source filters its candidate against the indicator list
(which holds University, checked case-insensitively), the fallback path
checks its own term list (which holds university), and the sentinel is
a fixed string without it. -/
theorem c7_no_university : ∀ (doc : Doc) (text : Str) (s : Str),
    s ∈ extract_companies doc text → ¬ (str "University" <:+: s) := by
  intro doc text s hs
  apply not_univ_of_noUniv
  rcases extract_companies_cases doc text with ⟨_, he⟩ | ⟨_, _, he⟩ | ⟨_, _, he⟩
  · rw [he] at hs
    have hs2 : s ∈ filteredCompanies doc.ents text :=
      ((pySorted_perm _).mem_iff).mp hs
    have hs3 : s ∈ companiesSet doc.ents text := (List.mem_filter.mp hs2).1
    exact companiesSet_allNoUniv doc.ents text s hs3
  · rw [he] at hs
    exact fallbackCompanies_allNoUniv doc.ents s hs
  · rw [he] at hs
    have hsent : s = noCompaniesSentinel := by simpa using hs
    rw [hsent]
    show containsSub (str "university") (lowerStr noCompaniesSentinel) = false
    decide

/-- Witness for claim C7 at a concrete input. -/
theorem c7_no_university_witness : ¬ (str "University" <:+: str "Acme Inc") :=
  c7_no_university acmeDoc [] (str "Acme Inc") (by decide)

/-- Claim C8 (confirmed): the Companies extractor never returns an empty
list; when both the filtered set and the fallback set are empty it
returns exactly the one-element sentinel list; and every return is
either the sorted filtered set, the fallback list, or exactly the
one-element sentinel list — the sentinel branch never appends the
sentinel to real candidates. -/
theorem c8_sentinel_exact : ∀ (doc : Doc) (text : Str),
    extract_companies doc text ≠ [] ∧
    ((filteredCompanies doc.ents text = [] ∧ fallbackCompanies doc.ents = []) →
      extract_companies doc text = [noCompaniesSentinel]) ∧
    (extract_companies doc text = pySorted (filteredCompanies doc.ents text) ∨
      extract_companies doc text = fallbackCompanies doc.ents ∨
      extract_companies doc text = [noCompaniesSentinel]) := by
  intro doc text
  rcases extract_companies_cases doc text with ⟨hf, he⟩ | ⟨hf, hfb, he⟩ | ⟨hf, hfb, he⟩
  · refine ⟨?_, ?_, Or.inl he⟩
    · rw [he]
      intro hnil
      have hperm := pySorted_perm (filteredCompanies doc.ents text)
      rw [hnil] at hperm
      exact hf hperm.symm.eq_nil
    · rintro ⟨h1, _⟩
      exact absurd h1 hf
  · refine ⟨?_, ?_, Or.inr (Or.inl he)⟩
    · rw [he]
      exact hfb
    · rintro ⟨_, h2⟩
      exact absurd h2 hfb
  · exact ⟨by rw [he]; simp, fun _ => he, Or.inr (Or.inr he)⟩

/-- Witness for claim C8: the empty input yields exactly the sentinel. -/
theorem c8_sentinel_exact_witness :
    extract_companies emptyDoc [] = [noCompaniesSentinel] :=
  (c8_sentinel_exact emptyDoc []).2.1 ⟨by decide, by decide⟩

/-- Claim C9 (confirmed): the Education output is the educational ORGs
in entity order, followed by (a subsequence of) the degree matches,
followed by (a subsequence of) the major matches with "in " replaced
away — and on a document holding one educational ORG, one degree phrase
and one major phrase, the output is exactly [org, degree, major]. -/
theorem c9_education_order : (∀ doc : Doc, ∃ ds ms,
      extract_education doc = eduOrgs doc ++ ds ++ ms ∧
      ds.Sublist (degreesOf doc) ∧
      ms.Sublist ((majorsOf doc).map (replaceAll (str "in ") []))) ∧
    extract_education eduDoc = [str "Harvard University", str "Bachelor", str "Physics"] := by
  constructor
  · intro doc
    obtain ⟨ds, h1, h2, _, _⟩ := eduFoldDeg_decomp (degreesOf doc) (eduOrgs doc)
    obtain ⟨ms, h5, h6⟩ :=
      eduFoldMaj_decomp (majorsOf doc) (eduFoldDeg (eduOrgs doc) (degreesOf doc))
    refine ⟨ds, ms, ?_, h2, h6⟩
    unfold extract_education
    rw [h5, h1, List.append_assoc]
  · decide

/-- Claim C10 (confirmed): the Name extractor returns the empty string
when there is no PERSON span, and otherwise the longest PERSON span
text with ties broken in favour of the earlier entity: the PERSON list
splits around the result with a strictly shorter prefix, and the result
dominates every PERSON text in length; on the Jon document it returns
the full name. -/
theorem c10_name_longest : (∀ doc : Doc,
      (personTexts doc.ents = [] → extract_name doc = []) ∧
      (personTexts doc.ents ≠ [] → ∃ l1 l2,
        personTexts doc.ents = l1 ++ (extract_name doc) :: l2 ∧
        (∀ t ∈ l1, t.length < (extract_name doc).length) ∧
        (∀ t ∈ personTexts doc.ents, t.length ≤ (extract_name doc).length))) ∧
    extract_name jonDoc = str "Jonathan Michael Smith" := by
  constructor
  · intro doc
    constructor
    · intro h
      simp only [extract_name]
      rw [if_pos h]
    · intro h
      have hx : extract_name doc = (sortLenDesc (personTexts doc.ents)).headD [] := by
        simp only [extract_name]
        rw [if_neg h]
      rw [hx]
      exact sortLenDesc_first (personTexts doc.ents) h
  · decide

/-- Witness for claim C10 at the Jon document. -/
theorem c10_name_longest_witness : ∃ l1 l2,
    personTexts jonDoc.ents = l1 ++ (extract_name jonDoc) :: l2 ∧
    (∀ t ∈ l1, t.length < (extract_name jonDoc).length) ∧
    (∀ t ∈ personTexts jonDoc.ents, t.length ≤ (extract_name jonDoc).length) :=
  (c10_name_longest.1 jonDoc).2 (by decide)

/-- Claim C5, counterexample: the final character class of the email
regex is written [A-Z|a-z], which literally contains the pipe, so on
the text a@b.cd|e the extractor returns a@b.cd|e, whose token after the
final dot contains the non-alphabetic pipe character. -/
theorem c5_pipe_tld_cex :
    extract_email (str "a@b.cd|e") = str "a@b.cd|e" ∧
    '|' ∈ afterLastDot (extract_email (str "a@b.cd|e")) ∧
    ('|'.isAlpha = false) := by
  refine ⟨by decide, by decide, by decide⟩

/-- Claim C5 (amended): the Email extractor returns the first
email-shaped match in document order, or empty; every non-empty result
has the shape local-part, at sign, domain, dot, final token, where the
token after the final dot has 2 or more characters each of which is
alphabetic OR the pipe (the class [A-Z|a-z] of the source regex),
the local part is non-empty over its class, and the domain is non-empty
over its class. -/
theorem c5_email_shape_amended : ∀ text : Str,
    extract_email text = [] ∨
    (∃ loc dom,
      extract_email text = loc ++ '@' :: (dom ++ '.' :: afterLastDot (extract_email text)) ∧
      loc ≠ [] ∧ dom ≠ [] ∧
      (∀ c ∈ loc, localC c = true) ∧ (∀ c ∈ dom, domC c = true) ∧
      2 ≤ (afterLastDot (extract_email text)).length ∧
      (∀ c ∈ afterLastDot (extract_email text), tldC c = true) ∧
      (∃ i, emailAt (charBefore text i) (text.drop i) = some (extract_email text) ∧
        ∀ j < i, emailAt (charBefore text j) (text.drop j) = none)) := by
  intro text
  cases hscan : emailScan none text with
  | none =>
    left
    unfold extract_email
    rw [hscan]
    rfl
  | some r =>
    right
    have hre : extract_email text = r := by
      unfold extract_email
      rw [hscan]
      rfl
    obtain ⟨j, _, hat, hfirst⟩ :=
      emailScan_spec text none text 0 r (by simp) (by simp [charBefore]) hscan
    obtain ⟨s2, k, m, heq, hrdef, hloc, hk1, hk2, hdot, hm2, hm6⟩ := emailAt_spec hat
    have hfinchars : ∀ c ∈ (s2.drop (k + 1)).take m, tldC c = true :=
      mem_take_of_le_takeWhile _ m hm6
    have hfin_ne_dot : ∀ c ∈ (s2.drop (k + 1)).take m, ¬ c = '.' := by
      intro c hc hceq
      have h1 := hfinchars c hc
      rw [hceq] at h1
      exact absurd h1 (by decide)
    have hald : afterLastDot r = (s2.drop (k + 1)).take m := by
      rw [hrdef]
      have hsplit : (text.drop j).takeWhile localC ++
          '@' :: (s2.take k ++ '.' :: (s2.drop (k + 1)).take m) =
          ((text.drop j).takeWhile localC ++ '@' :: s2.take k) ++
            '.' :: (s2.drop (k + 1)).take m := by
        simp
      rw [hsplit]
      exact afterLastDot_append hfin_ne_dot
    have hklen : k < s2.length := (List.getElem?_eq_some_iff.mp hdot).1
    refine ⟨(text.drop j).takeWhile localC, s2.take k, ?_, hloc, ?_, ?_, ?_, ?_, ?_, ?_⟩
    · rw [hre, hald]
      exact hrdef
    · have hlen : (s2.take k).length = k := by
        rw [List.length_take]
        omega
      intro hnil
      rw [hnil] at hlen
      simp at hlen
      omega
    · intro c hc
      exact List.mem_takeWhile_imp hc
    · intro c hc
      exact mem_take_of_le_takeWhile s2 k hk2 c hc
    · rw [hre, hald]
      have hlen2 : ((s2.drop (k + 1)).takeWhile tldC).length ≤ (s2.drop (k + 1)).length :=
        (List.takeWhile_prefix tldC).length_le
      rw [List.length_take]
      omega
    · rw [hre, hald]
      exact hfinchars
    · refine ⟨j, by rw [hre]; exact hat, fun j' hj' => hfirst j' (by omega) hj'⟩

/-- Witness for the amended claim C5 at a concrete input with a match. -/
theorem c5_email_shape_amended_witness : ∃ loc dom,
    extract_email (str "x a@b.io") =
      loc ++ '@' :: (dom ++ '.' :: afterLastDot (extract_email (str "x a@b.io"))) ∧
    loc ≠ [] ∧ dom ≠ [] ∧
    (∀ c ∈ loc, localC c = true) ∧ (∀ c ∈ dom, domC c = true) ∧
    2 ≤ (afterLastDot (extract_email (str "x a@b.io"))).length ∧
    (∀ c ∈ afterLastDot (extract_email (str "x a@b.io")), tldC c = true) ∧
    (∃ i, emailAt (charBefore (str "x a@b.io") i) ((str "x a@b.io").drop i) =
        some (extract_email (str "x a@b.io")) ∧
      ∀ j < i, emailAt (charBefore (str "x a@b.io") j) ((str "x a@b.io").drop j) = none) :=
  (c5_email_shape_amended (str "x a@b.io")).resolve_left (by decide)

/-- Witness for claim C9 at the concrete education document. -/
theorem c9_education_order_witness : ∃ ds ms,
    extract_education eduDoc = eduOrgs eduDoc ++ ds ++ ms ∧
    ds.Sublist (degreesOf eduDoc) ∧
    ms.Sublist ((majorsOf eduDoc).map (replaceAll (str "in ") [])) :=
  c9_education_order.1 eduDoc
